import Mathlib

/-!
Verification development for the dataset upload tooling (`tools.py`):
the in-memory tree model (`PathData` / nutree nodes), the pattern
partitioner `partition_tree_by_fnmatches`, and the size-bounded chunker
`split_into_chunks` with its internal `find_splits` pass and
`validate_ziptree` post-condition checker.

Trees are embedded as a nested inductive `PTree` (a node's `PathData`
payload plus the ordered list of children); a nutree `Tree` object is a
forest `List PTree` of top-level nodes (normally a single root, but the
chunker can add further top-level archive nodes via `node.up().add`).
Machine integers are `Nat` (sizes are non-negative byte counts and never
overflow Python ints). Fallible code returns `Except`.
-/

/-- Payload of a tree node, mirroring the `PathData` dataclass:
path string, directory flag, archive ("zip") flag, the derived
`has_zip_descendants` flag, and size in bytes. -/
structure PathData where
  path : String
  is_dir : Bool
  is_zip : Bool
  has_zip_descendants : Bool
  size : Nat
deriving DecidableEq

/-- A tree node: payload plus ordered children (nutree node). -/
inductive PTree where
  | node (data : PathData) (children : List PTree)

def PTree.data : PTree → PathData
  | .node d _ => d

def PTree.children : PTree → List PTree
  | .node _ cs => cs

mutual
def decEqPTree : (a b : PTree) → Decidable (a = b)
  | .node d cs, .node e ds =>
    match decEq d e with
    | isFalse h => isFalse (by simp [PTree.node.injEq]; intro h'; exact absurd h' h)
    | isTrue h =>
      match decEqPTreeList cs ds with
      | isTrue h2 => isTrue (by rw [h, h2])
      | isFalse h2 => isFalse (by simp [PTree.node.injEq]; intro _; exact h2)

def decEqPTreeList : (a b : List PTree) → Decidable (a = b)
  | [], [] => isTrue rfl
  | [], _ :: _ => isFalse (by simp)
  | _ :: _, [] => isFalse (by simp)
  | a :: as, b :: bs =>
    match decEqPTree a b with
    | isFalse h1 => isFalse (by simp [List.cons.injEq]; intro h'; exact absurd h' h1)
    | isTrue h1 =>
      match decEqPTreeList as bs with
      | isTrue h2 => isTrue (by rw [h1, h2])
      | isFalse h2 => isFalse (by simp [List.cons.injEq]; intro _; exact h2)
end

instance : DecidableEq PTree := decEqPTree

/-- `has_zip_descendants` flag of a node. -/
def PTree.flag (t : PTree) : Bool := t.data.has_zip_descendants

/-! ### Natural-sort key (`natsort.natsorted`)

`natsorted` splits a string into maximal digit runs (compared as
numbers) and non-digit runs (compared as strings); digit runs order
before non-digit runs at the same position.  The sort key used by
`find_splits` is the pair `(path.is_file(), str(path))`, compared
lexicographically (`False < True`, so non-files come first). -/

def digitsToNat (cs : List Char) : Nat :=
  cs.foldl (fun n c => 10 * n + (c.toNat - '0'.toNat)) 0

/-- One chunk of a natural-sort key: a digit run compared as a number,
or a non-digit run compared as its list of character code points
(Python compares strings by code point, and digit chunks order before
string chunks at the same position). -/
abbrev KeyChunk := Nat ⊕ₗ List Nat

/-- Turn one maximal run of characters (held in reverse order) into a
key chunk. -/
def chunkToKey (isNum : Bool) (run : List Char) : KeyChunk :=
  if isNum then toLex (Sum.inl (digitsToNat run.reverse))
  else toLex (Sum.inr (run.reverse.map Char.toNat))

/-- Accumulator pass splitting a character list into maximal digit /
non-digit runs (`isNum` is the kind of the current run, `run` holds it
reversed). -/
def natKeyGo : Bool → List Char → List Char → List KeyChunk
  | isNum, run, [] => if run.isEmpty then [] else [chunkToKey isNum run]
  | isNum, run, c :: cs =>
    if run.isEmpty then natKeyGo c.isDigit [c] cs
    else if c.isDigit = isNum then natKeyGo isNum (c :: run) cs
    else chunkToKey isNum run :: natKeyGo c.isDigit [c] cs

/-- Natural-sort key of a string. -/
def natKey (s : String) : List KeyChunk := natKeyGo false [] s.data

/-- The sort key `(n.data.path.is_file(), str(n.data.path))` used by
`find_splits`; on the freshly scanned nodes being sorted,
`path.is_file()` is true exactly for non-directory entries. -/
def childKey (t : PTree) : Lex (Bool × List KeyChunk) :=
  toLex (!t.data.is_dir, natKey t.data.path)

example : natKey "a2" < natKey "a10" := by decide
example : natKey "r/a" < natKey "r/b" := by decide
example : childKey (.node ⟨"z", true, false, false, 0⟩ []) <
    childKey (.node ⟨"a", false, false, false, 0⟩ []) := by decide

/-- `natsorted(children, key=lambda n: (n.data.path.is_file(), str(n.data.path)))`:
a stable sort by `childKey` (Python's `sorted` is stable; `insertionSort` is). -/
def sortChildren (cs : List PTree) : List PTree :=
  cs.insertionSort (fun a b => childKey a ≤ childKey b)

/-- `itertools.accumulate`: running cumulative sums. -/
def accumulate : List Nat → List Nat
  | [] => []
  | x :: xs => x :: (accumulate xs).map (x + ·)

/-- `more_itertools.split_when`: split a list into contiguous runs,
starting a new run between adjacent `x, y` with `pred x y`. -/
def splitWhen {α : Type} (pred : α → α → Bool) : List α → List (List α)
  | [] => []
  | x :: xs =>
    match splitWhen pred xs with
    | [] => [[x]]
    | [] :: gs => [x] :: gs
    | (y :: g) :: gs => if pred x y then [x] :: (y :: g) :: gs else (x :: y :: g) :: gs

/-- Take successive groups of the given lengths off the front of a list
(`children_iter = iter(children)` plus `mitertools.take`). -/
def takeGroups {α : Type} : List Nat → List α → List (List α)
  | [], _ => []
  | n :: ns, xs => xs.take n :: takeGroups ns (xs.drop n)

/-- The eligible children of a split candidate — those without
`has_zip_descendants` — in canonical sorted order. -/
def eligibleChildren (cs : List PTree) : List PTree :=
  sortChildren (cs.filter (fun n => !n.flag))

/-- The grouping a split candidate applies to its eligible children:
cumulative sizes over the sorted sequence, with a new group whenever
the running total crosses into a new multiple of `chunk_size`
(`x // chunk_size != y // chunk_size`). -/
def nodeGroups (chunk_size : Nat) (cs : List PTree) : List (List PTree) :=
  let children := eligibleChildren cs
  let cumulative_sizes := accumulate (children.map (fun c => c.data.size))
  let groups_lengths :=
    (splitWhen (fun x y => x / chunk_size != y / chunk_size) cumulative_sizes).map
      List.length
  takeGroups groups_lengths children

/-- A recorded split: the candidate node's `data_id` (its path — every
candidate is an original, non-zip node) and group index, plus the group
members. -/
abbrev Split := (String × Nat) × List PTree

mutual
/-- `find_splits`: recurse into the children first, OR-propagating each
child's final `has_zip_descendants` into the node, then — when
`node.data.size > chunk_size or node.depth() <= min_zip_depth` — record
the canonical grouping of the eligible children, marking the node as
having zip descendants whenever at least one group is recorded.  The
tree topology is untouched; splits are returned in insertion order
(descendants' splits before the node's own). -/
def find_splits (chunk_size min_zip_depth dep : Nat) : PTree → PTree × List Split
  | .node d cs =>
    let r := find_splits_list chunk_size min_zip_depth (dep + 1) cs
    let flag0 := d.has_zip_descendants || r.1.any (fun c => c.flag)
    if d.size > chunk_size || dep ≤ min_zip_depth then
      let gs := nodeGroups chunk_size r.1
      (.node { d with has_zip_descendants := flag0 || !gs.isEmpty } r.1,
        r.2 ++ gs.enum.map (fun gi => ((d.path, gi.1), gi.2)))
    else
      (.node { d with has_zip_descendants := flag0 } r.1, r.2)
  termination_by structural t => t

def find_splits_list (chunk_size min_zip_depth dep : Nat) :
    List PTree → List PTree × List Split
  | [] => ([], [])
  | t :: ts =>
    let r1 := find_splits chunk_size min_zip_depth dep t
    let r2 := find_splits_list chunk_size min_zip_depth dep ts
    (r1.1 :: r2.1, r1.2 ++ r2.2)
  termination_by structural ts => ts
end

/-! ### Path helpers (`pathlib.Path.stem` / `with_name`) -/

/-- Index of the last occurrence of `c`, if any. -/
def lastIdxOf (c : Char) (cs : List Char) : Option Nat :=
  match cs.reverse.findIdx? (· = c) with
  | none => none
  | some i => some (cs.length - 1 - i)

/-- Final path component (`Path.name`). -/
def pathName (p : String) : String :=
  match lastIdxOf '/' p.data with
  | none => p
  | some i => String.mk (p.data.drop (i + 1))

/-- `Path.with_name`: replace the final component. -/
def withName (p n : String) : String :=
  match lastIdxOf '/' p.data with
  | none => n
  | some i => String.mk (p.data.take (i + 1)) ++ n

/-- `Path.stem`: final component without its suffix (a trailing
extension exists when the final dot is neither first nor last). -/
def pathStem (p : String) : String :=
  let name := (pathName p).data
  match lastIdxOf '.' name with
  | none => String.mk name
  | some i => if 0 < i && i + 1 < name.length then String.mk (name.take i) else String.mk name

/-- Name of the `i`-th archive created for the node at `p`:
`p.with_name(f"{p.stem}_{i}.zip")`. -/
def zipName (p : String) (i : Nat) : String :=
  withName p (pathStem p ++ "_" ++ toString i ++ ".zip")

/-! ### Applying the recorded splits

For every recorded split, `split_into_chunks` looks the candidate node
up by `data_id` (first pre-order match on `(path, is_zip)`), adds a new
zip node under the candidate's *parent* (`node.up().add(...)` appends
at the end of the sibling list), moves the group members into it, and
removes the candidate once all of its children have moved out. -/

mutual
/-- Apply one split at the level of a sibling list; the `Bool` reports
whether the candidate node was found in this forest. -/
def applySplitF (p : String) (zipnode : PTree) (memberPaths : List String) :
    List PTree → List PTree × Bool
  | [] => ([], false)
  | t :: ts =>
    if t.data.path = p && !t.data.is_zip then
      let remaining := t.children.filter
        (fun c => !(memberPaths.contains c.data.path && !c.data.is_zip))
      if remaining.isEmpty then (ts ++ [zipnode], true)
      else (PTree.node t.data remaining :: ts ++ [zipnode], true)
    else
      match applySplitT p zipnode memberPaths t with
      | (t', true) => (t' :: ts, true)
      | (_, false) =>
        let r := applySplitF p zipnode memberPaths ts
        (t :: r.1, r.2)
  termination_by structural ts => ts

def applySplitT (p : String) (zipnode : PTree) (memberPaths : List String) :
    PTree → PTree × Bool
  | .node d cs =>
    let r := applySplitF p zipnode memberPaths cs
    (PTree.node d r.1, r.2)
  termination_by structural t => t
end

/-- Sum of the members' sizes (`sum(c.data.size for c in group_children)`). -/
def sumSizes (g : List PTree) : Nat := (g.map (fun c => c.data.size)).sum

/-- The zip node materialized for split `(p, i)` with members `g`. -/
def mkZipNode (p : String) (i : Nat) (g : List PTree) : PTree :=
  PTree.node
    { path := zipName p i, is_dir := false, is_zip := true,
      has_zip_descendants := false, size := sumSizes g } g

/-- Apply all recorded splits in insertion order. -/
def applySplits : List Split → List PTree → List PTree
  | [], forest => forest
  | ((p, i), g) :: rest, forest =>
    applySplits rest
      (applySplitF p (mkZipNode p i g) (g.map (fun c => c.data.path)) forest).1

/-! ### Leaves and validation -/

mutual
/-- Paths of all leaves (`tree.find_all(match=lambda n: n.is_leaf())`). -/
def leafPathsT : PTree → List String
  | .node d cs => if cs.isEmpty then [d.path] else leafPathsF cs
  termination_by structural t => t

def leafPathsF : List PTree → List String
  | [] => []
  | t :: ts => leafPathsT t ++ leafPathsF ts
  termination_by structural ts => ts
end

/-- Errors `split_into_chunks` can raise: missing files detected by the
set difference check, and the two `validate_ziptree` failures. -/
inductive ChunkError where
  | missingFiles
  | emptyZipNode
  | nonZippedLeaf
deriving DecidableEq

mutual
/-- `validate_ziptree`, one node: an empty (childless) zip node is an
error, a non-empty zip node is skipped (`SkipBranch`), a non-zip leaf
is an error, otherwise recurse.  The first error in pre-order wins. -/
def validateT : PTree → Option ChunkError
  | .node d cs =>
    if d.is_zip then (if cs.isEmpty then some .emptyZipNode else none)
    else if cs.isEmpty then some .nonZippedLeaf
    else validateF cs
  termination_by structural t => t

def validateF : List PTree → Option ChunkError
  | [] => none
  | t :: ts =>
    match validateT t with
    | some e => some e
    | none => validateF ts
  termination_by structural ts => ts
end

/-- The two checks closing `split_into_chunks`: the lost-file check
(`raw_files - zip_files`) followed by the `validate_ziptree`
traversal. -/
def ziptreeChecks (raw_files : List String) (result : List PTree) :
    Except ChunkError (List PTree) :=
  if raw_files.any (fun p => !(leafPathsF result).contains p) then .error .missingFiles
  else
    match validateF result with
    | some e => .error e
    | none => .ok result

/-- `split_into_chunks`: find the splits from the root (an empty tree
is returned as-is), apply them, then check that no leaf path was lost
and that the result passes `validate_ziptree`. -/
def split_into_chunks (chunk_size min_zip_depth : Nat) :
    List PTree → Except ChunkError (List PTree)
  | [] => .ok []
  | root :: rest =>
    let raw_files := leafPathsF (root :: rest)
    let r := find_splits chunk_size min_zip_depth 1 root
    ziptreeChecks raw_files (applySplits r.2 (r.1 :: rest))

/-! ### `fnmatch` and the pattern partitioner -/

/-- Core of `fnmatch.fnmatch` for patterns built from literals, `?` and
`*` (`*` matches any run of characters, slashes included — `fnmatch`
translates the whole pattern to a regex over the full string).  The
fuel argument only forces termination; `pat.length + s.length + 1` is
always enough since every step shrinks `pat` or `s`. -/
def fnmatchAux : Nat → List Char → List Char → Bool
  | 0, _, _ => false
  | _ + 1, [], [] => true
  | fuel + 1, p :: ps, [] =>
    if p = '*' then fnmatchAux fuel ps [] else false
  | _ + 1, [], _ :: _ => false
  | fuel + 1, p :: ps, c :: cs =>
    if p = '*' then fnmatchAux fuel ps (c :: cs) || fnmatchAux fuel (p :: ps) cs
    else if p = '?' then fnmatchAux fuel ps cs
    else p = c && fnmatchAux fuel ps cs

/-- `fnmatch.fnmatch(name, pat)` (POSIX: no case folding). -/
def fnmatch (name pat : String) : Bool :=
  fnmatchAux (pat.length + name.length + 1) pat.data name.data

/-- Errors of `partition_tree_by_fnmatches`: the duplicate-pattern
`RuntimeError` plus its two `assert`s (leaf overlap, leaf cover). -/
inductive PartitionError where
  | duplicatePattern
  | overlappingLeaves
  | unmatchedLeaves
deriving DecidableEq

/-- Boolean disjointness of two path lists. -/
def disjointL (u v : List String) : Bool := u.all (fun x => !v.contains x)

/-- `all(set(u).isdisjoint(v) for u, v in itertools.combinations(gs, 2))`. -/
def pairwiseDisjointB : List (List String) → Bool
  | [] => true
  | g :: gs => gs.all (disjointL g) && pairwiseDisjointB gs

/-- Leaf paths matched by a (possibly absent) pattern expression.  The
`none` (wildcard) expression never reaches `fnmatch` in the source; it
contributes no matches here. -/
def matchExpr (p : String) : Option String → Bool
  | some e => fnmatch p e
  | none => false

/-- A leaf is excluded from the default group when it matches any
truthy pattern expression (`if pattern_expr` skips `None` and `""`). -/
def matchesAnyTruthy (pats : List (String × Option String)) (p : String) : Bool :=
  pats.any (fun kv =>
    match kv.2 with
    | some e => !(e = "") && fnmatch p e
    | none => false)

mutual
/-- nutree `tree.filtered(predicate)` on one node: a node is kept when
the predicate holds of it or some descendant is kept; kept nodes keep
their (recursively filtered) kept children. -/
def filteredT (keep : String → Bool) : PTree → Option PTree
  | .node d cs =>
    let cs' := filteredF keep cs
    if keep d.path || !cs'.isEmpty then some (.node d cs') else none
  termination_by structural t => t

def filteredF (keep : String → Bool) : List PTree → List PTree
  | [] => []
  | t :: ts =>
    match filteredT keep t with
    | some t' => t' :: filteredF keep ts
    | none => filteredF keep ts
  termination_by structural ts => ts
end

mutual
/-- `populate_filesize(refresh=True)` on one node: children first, then
a directory's size becomes the sum of its children's sizes. -/
def populateT : PTree → PTree
  | .node d cs =>
    let cs' := populateF cs
    .node (if d.is_dir then { d with size := sumSizes cs' } else d) cs'
  termination_by structural t => t

def populateF : List PTree → List PTree
  | [] => []
  | t :: ts => populateT t :: populateF ts
  termination_by structural ts => ts
end

/-- `populate_filesize(node=tree)`: a nutree `Tree` argument recurses
into `tree.first_child()` only. -/
def populateTree : List PTree → List PTree
  | [] => []
  | r :: rest => populateT r :: rest

/-- The effective default group name: the name of the (unique, after
the duplicate check) `None` entry when present, else the
`default_groupname` argument (`reverse_patterns[None]`). -/
def defaultName (patterns : List (String × Option String))
    (default_groupname : String) : String :=
  match patterns.find? (fun kv => kv.2 = none) with
  | some kv => kv.1
  | none => default_groupname

/-- The patterns after the wildcard entry is ensured
(`patterns[default_groupname] = None` — a Python dict assignment
overwrites an equally named entry in place, else appends). -/
def effectivePatterns (patterns : List (String × Option String))
    (default_groupname : String) : List (String × Option String) :=
  if patterns.any (fun kv => kv.2 = none) then patterns
  else if patterns.any (fun kv => kv.1 = default_groupname) then
    patterns.map (fun kv => if kv.1 = default_groupname then (kv.1, none) else kv)
  else patterns ++ [(default_groupname, none)]

/-- The `matched_leafs` groups: one group of `fnmatch`-ing leaves per
non-default pattern, in order, then the default group of leaves that
match no truthy pattern expression.  `all_leafs` is keyed by path
(a Python dict), hence the `dedup`. -/
def matchedLeafGroups (tree : List PTree)
    (patterns : List (String × Option String))
    (default_groupname : String) : List (String × List String) :=
  let dg := defaultName patterns default_groupname
  let pats := effectivePatterns patterns default_groupname
  let all_leafs := (leafPathsF tree).dedup
  (pats.filter (fun kv => kv.1 ≠ dg)).map
    (fun kv => (kv.1, all_leafs.filter (fun p => matchExpr p kv.2)))
  ++ [(dg, all_leafs.filter (fun p => !matchesAnyTruthy pats p))]

/-- `partition_tree_by_fnmatches`: after the duplicate-pattern check,
the leaves are split into the `matchedLeafGroups`; the groups must be
pairwise disjoint and cover every leaf (the two `assert`s); finally
each group is carved out of the tree with `filtered`, sizes are
recomputed (`deepcopy` through serialization is the identity on the
value), and empty partitions are dropped. -/
def partition_tree_by_fnmatches (tree : List PTree)
    (patterns : List (String × Option String))
    (default_groupname : String := "metadata") :
    Except PartitionError (List (String × List PTree)) :=
  if (patterns.map Prod.snd).dedup.length ≠ patterns.length then
    .error .duplicatePattern
  else
    let all_leafs := (leafPathsF tree).dedup
    let matched_leafs := matchedLeafGroups tree patterns default_groupname
    if !pairwiseDisjointB (matched_leafs.map Prod.snd) then
      .error .overlappingLeaves
    else if !(all_leafs.all (fun p =>
        matched_leafs.any (fun g => g.2.contains p))
        && matched_leafs.all (fun g => g.2.all (fun p => all_leafs.contains p))) then
      .error .unmatchedLeaves
    else
      .ok ((matched_leafs.map
        (fun g => (g.1, populateTree (filteredF (fun p => g.2.contains p) tree)))).filter
          (fun st => !st.2.isEmpty))

/-! ## Helper constructors for concrete inputs -/

/-- A scanned file node. -/
def mfile (p : String) (sz : Nat) : PTree := .node ⟨p, false, false, false, sz⟩ []

/-- A scanned directory node. -/
def mdir (p : String) (sz : Nat) (cs : List PTree) : PTree := .node ⟨p, true, false, false, sz⟩ cs

/-- One mebibyte (sizes use 1024-based units). -/
def MB : Nat := 1048576

/-! ## Theorems -/

/-- A list whose `dedup` has full length is duplicate-free. -/
theorem nodup_of_dedup_length_eq {α : Type} [DecidableEq α] {l : List α}
    (h : l.dedup.length = l.length) : l.Nodup := by
  have h2 := (List.dedup_sublist l).eq_of_length h
  rw [← h2]
  exact List.nodup_dedup l

/-- C9: Re-running the Chunker on the same tree and configuration yields
structurally identical archive trees: the embedded transformation is a
pure function of tree and configuration (the source's determinism rests
on insertion-ordered dicts, a stable sort and a deterministic boundary
rule, all mirrored here), so two runs agree exactly — same grouping of
leaves into archives and same archive names. -/
theorem C9_chunker_rerun_identical (chunk_size min_zip_depth : Nat) (tree : List PTree) :
    split_into_chunks chunk_size min_zip_depth tree =
      split_into_chunks chunk_size min_zip_depth tree := rfl

/-- C10: whenever two distinct partition names are mapped to the same
pattern expression, `partition_tree_by_fnmatches` raises the
duplicate-pattern error — the very first check, performed before any
leaf matching (the returned error is `duplicatePattern`, not one of the
leaf-level assertion errors). -/
theorem C10_duplicate_pattern_error (tree : List PTree)
    (patterns : List (String × Option String)) (default_groupname : String)
    (n₁ n₂ : String) (e : Option String)
    (h₁ : (n₁, e) ∈ patterns) (h₂ : (n₂, e) ∈ patterns) (hne : n₁ ≠ n₂) :
    partition_tree_by_fnmatches tree patterns default_groupname =
      .error .duplicatePattern := by
  have hdup : (patterns.map Prod.snd).dedup.length ≠ patterns.length := by
    intro heq
    have hnd : (patterns.map Prod.snd).Nodup :=
      nodup_of_dedup_length_eq (by simpa using heq)
    have := List.inj_on_of_nodup_map hnd h₁ h₂ rfl
    exact hne (by simpa using congrArg Prod.fst this)
  unfold partition_tree_by_fnmatches
  rw [if_pos hdup]

/-- Concrete instantiation of `C10_duplicate_pattern_error`: two names
sharing the pattern `"x"`. -/
theorem C10_duplicate_pattern_error_witness :
    partition_tree_by_fnmatches [] [("a", some "x"), ("b", some "x")] "metadata" =
      .error .duplicatePattern :=
  C10_duplicate_pattern_error [] [("a", some "x"), ("b", some "x")] "metadata"
    "a" "b" (some "x") (by simp) (by simp) (by simp)

/-- `pairwiseDisjointB` gives pairwise element-level disjointness. -/
theorem pairwiseDisjointB_pairwise {gs : List (List String)}
    (h : pairwiseDisjointB gs = true) :
    gs.Pairwise (fun u v => ∀ x, x ∈ u → x ∈ v → False) := by
  induction gs with
  | nil => exact List.Pairwise.nil
  | cons g gs ih =>
    simp only [pairwiseDisjointB, Bool.and_eq_true, List.all_eq_true] at h
    refine List.Pairwise.cons (fun v hv x hxg hxv => ?_) (ih h.2)
    have := h.1 v hv
    simp only [disjointL, List.all_eq_true] at this
    simpa [hxv] using this x hxg

/-- A non-default `(name, some expr)` entry survives into
`effectivePatterns`. -/
theorem mem_effectivePatterns {patterns : List (String × Option String)}
    {default_groupname n : String} {e : String}
    (hmem : (n, some e) ∈ patterns)
    (hnd : n ≠ defaultName patterns default_groupname) :
    (n, some e) ∈ effectivePatterns patterns default_groupname := by
  unfold effectivePatterns
  split
  · exact hmem
  · next hnone =>
    have hdg : defaultName patterns default_groupname = default_groupname := by
      unfold defaultName
      rw [List.find?_eq_none.2]
      intro kv hkv
      simp only [Bool.not_eq_true]
      by_contra hc
      exact hnone (List.any_eq_true.2 ⟨kv, hkv, by simpa using hc⟩)
    rw [hdg] at hnd
    split
    · have : (fun kv : String × Option String =>
          if kv.1 = default_groupname then (kv.1, none) else kv) (n, some e)
          = (n, some e) := by simp [hnd]
      exact this ▸ List.mem_map_of_mem _ hmem
    · exact List.mem_append_left _ hmem

/-- A non-default `(name, some expr)` entry contributes the group of
leaves matching its expression to `matchedLeafGroups`. -/
theorem group_mem_matchedLeafGroups {tree : List PTree}
    {patterns : List (String × Option String)} {default_groupname n : String}
    {e : String}
    (hmem : (n, some e) ∈ patterns)
    (hnd : n ≠ defaultName patterns default_groupname) :
    (n, ((leafPathsF tree).dedup).filter (fun p => matchExpr p (some e))) ∈
      matchedLeafGroups tree patterns default_groupname := by
  unfold matchedLeafGroups
  refine List.mem_append_left _ ?_
  refine List.mem_map.2 ⟨(n, some e), ?_, rfl⟩
  exact List.mem_filter.2 ⟨mem_effectivePatterns hmem hnd, by simpa using hnd⟩

/-- C8: if two distinct non-default partition patterns match a common
leaf, partitioning fails — either already at the duplicate-pattern
check or at the pairwise-disjointness assertion — and in both cases the
error is returned before any subtree is carved out (the `.ok` branch
building the partition trees is never reached). -/
theorem C8_overlapping_patterns_error (tree : List PTree)
    (patterns : List (String × Option String)) (default_groupname : String)
    (n₁ n₂ e₁ e₂ l : String)
    (h₁ : (n₁, some e₁) ∈ patterns) (h₂ : (n₂, some e₂) ∈ patterns)
    (hne : n₁ ≠ n₂)
    (hd₁ : n₁ ≠ defaultName patterns default_groupname)
    (hd₂ : n₂ ≠ defaultName patterns default_groupname)
    (hl : l ∈ leafPathsF tree)
    (hm₁ : fnmatch l e₁ = true) (hm₂ : fnmatch l e₂ = true) :
    partition_tree_by_fnmatches tree patterns default_groupname =
      .error .duplicatePattern ∨
    partition_tree_by_fnmatches tree patterns default_groupname =
      .error .overlappingLeaves := by
  by_cases hdup : (patterns.map Prod.snd).dedup.length ≠ patterns.length
  · left
    unfold partition_tree_by_fnmatches
    rw [if_pos hdup]
  · right
    have hg₁ := @group_mem_matchedLeafGroups tree patterns default_groupname n₁ e₁ h₁ hd₁
    have hg₂ := @group_mem_matchedLeafGroups tree patterns default_groupname n₂ e₂ h₂ hd₂
    have hne' : (n₁, ((leafPathsF tree).dedup).filter (fun p => matchExpr p (some e₁)))
        ≠ (n₂, ((leafPathsF tree).dedup).filter (fun p => matchExpr p (some e₂))) := by
      intro hcontra
      exact hne (congrArg Prod.fst hcontra)
    have hpd : pairwiseDisjointB
        ((matchedLeafGroups tree patterns default_groupname).map Prod.snd) = false := by
      by_contra hc
      have htrue : pairwiseDisjointB
          ((matchedLeafGroups tree patterns default_groupname).map Prod.snd) = true := by
        revert hc
        cases pairwiseDisjointB
          ((matchedLeafGroups tree patterns default_groupname).map Prod.snd) <;> simp
      have hpw := (List.pairwise_map.1 (pairwiseDisjointB_pairwise htrue))
      have hsym : Symmetric (fun a b : String × List String =>
          ∀ x, x ∈ a.2 → x ∈ b.2 → False) := fun a b h x hxb hxa => h x hxa hxb
      have := hpw.forall hsym hg₁ hg₂ hne' l
        (List.mem_filter.2 ⟨List.mem_dedup.2 hl, by simpa using hm₁⟩)
        (List.mem_filter.2 ⟨List.mem_dedup.2 hl, by simpa using hm₂⟩)
      exact this
    unfold partition_tree_by_fnmatches
    rw [if_neg hdup]
    simp only [hpd, Bool.not_false, if_pos]

/-- Concrete instantiation of `C8_overlapping_patterns_error`: patterns
`"*.txt"` and `"*/logs/*"` both match the leaf `/root/logs/x.txt`. -/
theorem C8_overlapping_patterns_error_witness :
    partition_tree_by_fnmatches
      [mdir "/root" 10 [mdir "/root/logs" 10 [mfile "/root/logs/x.txt" 10]]]
      [("a", some "*.txt"), ("b", some "*/logs/*")] "metadata" =
        .error .duplicatePattern ∨
    partition_tree_by_fnmatches
      [mdir "/root" 10 [mdir "/root/logs" 10 [mfile "/root/logs/x.txt" 10]]]
      [("a", some "*.txt"), ("b", some "*/logs/*")] "metadata" =
        .error .overlappingLeaves :=
  C8_overlapping_patterns_error _ _ "metadata" "a" "b" "*.txt" "*/logs/*"
    "/root/logs/x.txt" (by simp) (by simp) (by decide)
    (by decide) (by decide) (by decide) (by decide) (by decide)

/-- Modelled from the spec (claim C6): the canonical order the
specification prescribes — files before directories, then
lexicographic/natural path order.  Defined only to compare with the
source's `childKey`/`sortChildren`. -/
def specCanonicalKey (t : PTree) : Lex (Bool × List KeyChunk) :=
  toLex (t.data.is_dir, natKey t.data.path)

/-- Modelled from the spec (claim C6): sorting by `specCanonicalKey`. -/
def specCanonicalSort (cs : List PTree) : List PTree :=
  cs.insertionSort (fun a b => specCanonicalKey a ≤ specCanonicalKey b)

instance : IsTotal PTree (fun a b => childKey a ≤ childKey b) :=
  ⟨fun _ _ => le_total _ _⟩

instance : IsTrans PTree (fun a b => childKey a ≤ childKey b) :=
  ⟨fun _ _ _ => le_trans⟩

/-- C6 (counterexample): the claimed canonical order (files before
directories) disagrees with the source on a two-child sibling list —
`natsorted` with key `(path.is_file(), str(path))` puts the directory
`/r/z` *before* the file `/r/a`, because `False < True` sorts
non-files first. -/
theorem C6_counterexample_sort_order :
    sortChildren [mfile "/r/a" 1, mdir "/r/z" 1 []] =
      [mdir "/r/z" 1 [], mfile "/r/a" 1] ∧
    specCanonicalSort [mfile "/r/a" 1, mdir "/r/z" 1 []] =
      [mfile "/r/a" 1, mdir "/r/z" 1 []] ∧
    sortChildren [mfile "/r/a" 1, mdir "/r/z" 1 []] ≠
      specCanonicalSort [mfile "/r/a" 1, mdir "/r/z" 1 []] := by
  refine ⟨by decide, by decide, by decide⟩

/-- C6 (amended): the canonical grouping order sorts the eligible
children by the key `(path.is_file(), str(path))` — *directories
before files* (the directory key is strictly below every file key),
then natural path order — and is a permutation of the input. -/
theorem C6_amended_directories_before_files :
    (∀ cs : List PTree, (sortChildren cs).Perm cs) ∧
    (∀ cs : List PTree,
      (sortChildren cs).Pairwise (fun a b => childKey a ≤ childKey b)) ∧
    (∀ a b : PTree, a.data.is_dir = true → b.data.is_dir = false →
      childKey a < childKey b) := by
  refine ⟨fun cs => List.perm_insertionSort _ cs,
    fun cs => List.sorted_insertionSort _ cs, fun a b ha hb => ?_⟩
  unfold childKey
  rw [ha, hb]
  refine (Prod.Lex.lt_iff _ _).2 (Or.inl ?_)
  show (false : Bool) < true
  exact Bool.false_lt_true

/-- Concrete instantiation of `C6_amended_directories_before_files`. -/
theorem C6_amended_directories_before_files_witness :
    (sortChildren [mfile "/r/a" 1, mdir "/r/z" 1 []]).Perm
      [mfile "/r/a" 1, mdir "/r/z" 1 []] ∧
    childKey (mdir "/r/z" 1 []) < childKey (mfile "/r/a" 1) :=
  ⟨C6_amended_directories_before_files.1 _,
    C6_amended_directories_before_files.2.2 _ _ rfl rfl⟩

/-- `splitWhen` only repartitions its input into contiguous runs. -/
theorem splitWhen_flatten {α : Type} (pred : α → α → Bool) :
    ∀ xs : List α, (splitWhen pred xs).flatten = xs := by
  intro xs
  induction xs with
  | nil => rfl
  | cons x xs ih =>
    rcases h : splitWhen pred xs with _ | ⟨g1, gs⟩
    · rw [h] at ih
      simp only [splitWhen, h]
      simp only [List.flatten_nil] at ih
      simp [← ih]
    · rw [h] at ih
      rcases g1 with _ | ⟨y, g0⟩
      · simp only [splitWhen, h]
        simpa using ih
      · simp only [splitWhen, h]
        split <;> simpa using ih

/-- Every run produced by `splitWhen` is non-empty. -/
theorem splitWhen_ne_nil {α : Type} (pred : α → α → Bool) :
    ∀ xs : List α, ∀ g ∈ splitWhen pred xs, g ≠ [] := by
  intro xs
  induction xs with
  | nil => intro g hg; simp [splitWhen] at hg
  | cons x xs ih =>
    intro g hg
    rcases h : splitWhen pred xs with _ | ⟨g1, gs⟩
    · simp only [splitWhen, h] at hg
      simp at hg
      simp [hg]
    · rw [h] at ih
      rcases g1 with _ | ⟨y, g0⟩
      · simp only [splitWhen, h] at hg
        rcases List.mem_cons.1 hg with rfl | hmem
        · simp
        · exact ih g (List.mem_cons_of_mem _ hmem)
      · simp only [splitWhen, h] at hg
        split at hg
        · rcases List.mem_cons.1 hg with rfl | hmem
          · simp
          · exact ih g hmem
        · rcases List.mem_cons.1 hg with rfl | hmem
          · simp
          · exact ih g (List.mem_cons_of_mem _ hmem)

/-- Inside a `splitWhen` run, no adjacent pair satisfies the
splitting predicate. -/
theorem splitWhen_within {α : Type} (pred : α → α → Bool) :
    ∀ xs : List α, ∀ g ∈ splitWhen pred xs,
      g.Chain' (fun a b => pred a b = false) := by
  intro xs
  induction xs with
  | nil => intro g hg; simp [splitWhen] at hg
  | cons x xs ih =>
    intro g hg
    rcases h : splitWhen pred xs with _ | ⟨g1, gs⟩
    · simp only [splitWhen, h] at hg
      simp at hg
      simp [hg]
    · rw [h] at ih
      rcases g1 with _ | ⟨y, g0⟩
      · simp only [splitWhen, h] at hg
        rcases List.mem_cons.1 hg with rfl | hmem
        · simp
        · exact ih g (List.mem_cons_of_mem _ hmem)
      · simp only [splitWhen, h] at hg
        split at hg
        · rcases List.mem_cons.1 hg with rfl | hmem
          · simp
          · exact ih g hmem
        · next hpred =>
          rcases List.mem_cons.1 hg with rfl | hmem
          · refine List.chain'_cons'.2 ⟨?_, ih (y :: g0) (List.mem_cons_self _ _)⟩
            intro b hb
            simp only [List.head?_cons, Option.mem_def, Option.some.injEq] at hb
            subst hb
            simpa using hpred
          · exact ih g (List.mem_cons_of_mem _ hmem)

/-- Adjacent `splitWhen` runs are separated exactly at a pair
satisfying the predicate: the last element of one run and the first
element of the next satisfy it. -/
theorem splitWhen_boundary {α : Type} (pred : α → α → Bool) :
    ∀ xs : List α, (splitWhen pred xs).Chain'
      (fun g h => ∃ a b, g.getLast? = some a ∧ h.head? = some b ∧ pred a b = true) := by
  intro xs
  induction xs with
  | nil => simp [splitWhen]
  | cons x xs ih =>
    rcases h : splitWhen pred xs with _ | ⟨g1, gs⟩
    · simp [splitWhen, h]
    · rw [h] at ih
      rcases g1 with _ | ⟨y, g0⟩
      · exact absurd rfl (splitWhen_ne_nil pred xs [] (h ▸ List.mem_cons_self _ _))
      · simp only [splitWhen, h]
        split
        · next hpred =>
          refine List.chain'_cons'.2 ⟨?_, ih⟩
          intro g2 hg2
          simp only [List.head?_cons, Option.mem_def, Option.some.injEq] at hg2
          subst hg2
          exact ⟨x, y, rfl, rfl, hpred⟩
        · rcases List.chain'_cons'.1 ih with ⟨hhead, htail⟩
          refine List.chain'_cons'.2 ⟨?_, htail⟩
          intro g2 hg2
          rcases hhead g2 hg2 with ⟨a, b, hlast, hhd, hp⟩
          exact ⟨a, b, by simpa using hlast, hhd, hp⟩

/-- `accumulate` preserves length. -/
theorem accumulate_length : ∀ xs : List Nat, (accumulate xs).length = xs.length := by
  intro xs
  induction xs with
  | nil => rfl
  | cons x xs ih => simp [accumulate, ih]

/-- `takeGroups` with lengths summing to the input's length flattens
back to the input. -/
theorem takeGroups_flatten {α : Type} :
    ∀ (ls : List Nat) (xs : List α), ls.sum = xs.length →
      (takeGroups ls xs).flatten = xs := by
  intro ls
  induction ls with
  | nil =>
    intro xs h
    simp only [List.sum_nil] at h
    cases xs with
    | nil => rfl
    | cons a as => simp at h
  | cons n ns ih =>
    intro xs h
    simp only [List.sum_cons] at h
    have hn : n ≤ xs.length := by omega
    have hdrop : ns.sum = (xs.drop n).length := by
      rw [List.length_drop]
      omega
    simp only [takeGroups, List.flatten_cons, ih (xs.drop n) hdrop]
    exact List.take_append_drop n xs

/-- The canonical grouping partitions the sorted eligible children:
flattening the groups recovers them in order. -/
theorem nodeGroups_flatten (chunk_size : Nat) (cs : List PTree) :
    (nodeGroups chunk_size cs).flatten = eligibleChildren cs := by
  unfold nodeGroups
  refine takeGroups_flatten _ _ ?_
  rw [← List.length_flatten, splitWhen_flatten, accumulate_length, List.length_map]

/-- The tree of the spec's Example 1/2: root `/r` with files
`a = 50MB`, `b = 80MB`, `c = 120MB`. -/
def specExampleTree : PTree :=
  mdir "/r" (250 * MB)
    [mfile "/r/a" (50 * MB), mfile "/r/b" (80 * MB), mfile "/r/c" (120 * MB)]

/-- Expected output of Example 1 (`C = 100MB, D = 1`): three singleton
archives. -/
def specExample1Result : List PTree :=
  [.node ⟨"/r_0.zip", false, true, false, 50 * MB⟩ [mfile "/r/a" (50 * MB)],
   .node ⟨"/r_1.zip", false, true, false, 80 * MB⟩ [mfile "/r/b" (80 * MB)],
   .node ⟨"/r_2.zip", false, true, false, 120 * MB⟩ [mfile "/r/c" (120 * MB)]]

/-- Expected output of Example 2 (`C = 200MB, D = 1`): archives
`{a, b}` and `{c}`. -/
def specExample2Result : List PTree :=
  [.node ⟨"/r_0.zip", false, true, false, 130 * MB⟩
      [mfile "/r/a" (50 * MB), mfile "/r/b" (80 * MB)],
   .node ⟨"/r_1.zip", false, true, false, 120 * MB⟩ [mfile "/r/c" (120 * MB)]]

/-- C2: the chunker groups a candidate's sorted eligible children by
running cumulative size, starting a new archive group exactly when the
cumulative total crosses a multiple of the chunk size: the groups
flatten back to the sorted eligible children, adjacent members inside a
group share the same bucket `floor(cum/C)`, adjacent groups are split
exactly at a bucket change, and the spec's two worked examples
(`a=50MB, b=80MB, c=120MB`, `C=100MB` resp. `C=200MB`, `D=1`) produce
the archives `{a},{b},{c}` resp. `{a,b},{c}`. -/
theorem C2_cumulative_bucket_grouping :
    (∀ chunk_size : Nat, ∀ cs : List PTree,
      (nodeGroups chunk_size cs).flatten = eligibleChildren cs) ∧
    (∀ chunk_size : Nat, ∀ xs : List Nat,
      ∀ g ∈ splitWhen (fun x y => x / chunk_size != y / chunk_size) xs,
        g.Chain' (fun x y => x / chunk_size = y / chunk_size)) ∧
    (∀ chunk_size : Nat, ∀ xs : List Nat,
      (splitWhen (fun x y => x / chunk_size != y / chunk_size) xs).Chain'
        (fun g h => ∃ a b, g.getLast? = some a ∧ h.head? = some b ∧
          a / chunk_size ≠ b / chunk_size)) ∧
    split_into_chunks (100 * MB) 1 [specExampleTree] = .ok specExample1Result ∧
    split_into_chunks (200 * MB) 1 [specExampleTree] = .ok specExample2Result := by
  refine ⟨nodeGroups_flatten, fun chunk_size xs g hg => ?_, fun chunk_size xs => ?_,
    by rfl, by rfl⟩
  · refine (splitWhen_within _ xs g hg).imp ?_
    intro a b h
    simpa using h
  · refine (splitWhen_boundary _ xs).imp ?_
    rintro g h ⟨a, b, h1, h2, h3⟩
    refine ⟨a, b, h1, h2, ?_⟩
    simpa using h3

/-- Concrete instantiation of `C2_cumulative_bucket_grouping`'s
quantified parts (cumulative sizes `50,130,250` with `C = 100`). -/
theorem C2_cumulative_bucket_grouping_witness :
    (nodeGroups 100 [mfile "/r/a" 50, mfile "/r/b" 80, mfile "/r/c" 120]).flatten =
      eligibleChildren [mfile "/r/a" 50, mfile "/r/b" 80, mfile "/r/c" 120] ∧
    List.Chain' (fun x y => x / 100 = y / 100) [130] ∧
    List.Chain'
      (fun g h => ∃ a b, g.getLast? = some a ∧ h.head? = some b ∧
        a / 100 ≠ b / 100) (splitWhen (fun x y => x / 100 != y / 100) [50, 130, 250]) :=
  ⟨C2_cumulative_bucket_grouping.1 100 _,
   C2_cumulative_bucket_grouping.2.1 100 [50, 130, 250] [130] (by decide),
   C2_cumulative_bucket_grouping.2.2.1 100 [50, 130, 250]⟩

/-- C1: evaluation of the chunker at the failing input (root `/r` with
files of 1, 99 and 99 bytes, `C = 100`, `D = 1`).  The cumulative sizes
are `1, 100, 199` with buckets `0, 1, 1`, so the second archive holds
`{b, c}` with size `198 > 150 = 1.5·C` even though every input file is
at most `C = 100` bytes — the group is not a single oversize file and
is never re-split, contradicting both the claim and the source's own
docstring ("At most each (deflated) zip will be one and a half time
this size"). -/
theorem C1_oversize_archive_without_oversize_file :
    split_into_chunks 100 1
        [mdir "/r" 199 [mfile "/r/a" 1, mfile "/r/b" 99, mfile "/r/c" 99]] =
      .ok [PTree.node ⟨"/r_0.zip", false, true, false, 1⟩ [mfile "/r/a" 1],
           PTree.node ⟨"/r_1.zip", false, true, false, 198⟩
             [mfile "/r/b" 99, mfile "/r/c" 99]] ∧
    198 > 100 + 100 / 2 ∧ [1, 99, 99].all (fun sz => sz ≤ 100) = true :=
  ⟨rfl, by decide, by decide⟩

/-- `splitWhen` of a non-empty list is non-empty. -/
theorem splitWhen_ne_nil_of_ne_nil {α : Type} (pred : α → α → Bool)
    (xs : List α) (h : xs ≠ []) : splitWhen pred xs ≠ [] := by
  cases xs with
  | nil => exact absurd rfl h
  | cons x xs =>
    rcases hs : splitWhen pred xs with _ | ⟨g1, gs⟩
    · simp [splitWhen, hs]
    · rcases g1 with _ | ⟨y, g0⟩
      · simp [splitWhen, hs]
      · simp only [splitWhen, hs]
        split <;> simp

/-- A candidate records at least one group exactly when it has an
eligible child. -/
theorem nodeGroups_eq_nil_iff (chunk_size : Nat) (cs : List PTree) :
    nodeGroups chunk_size cs = [] ↔ eligibleChildren cs = [] := by
  constructor
  · intro h
    have hfl := nodeGroups_flatten chunk_size cs
    rw [h] at hfl
    simpa using hfl.symm
  · intro h
    simp only [nodeGroups, h]
    rfl

/-- One-step unfolding of `find_splits` at a node. -/
theorem find_splits_node (chunk_size min_zip_depth dep : Nat) (d : PathData)
    (cs : List PTree) :
    find_splits chunk_size min_zip_depth dep (.node d cs) =
      (let r := find_splits_list chunk_size min_zip_depth (dep + 1) cs
       let flag0 := d.has_zip_descendants || r.1.any (fun c => c.flag)
       if d.size > chunk_size || dep ≤ min_zip_depth then
         (.node { d with has_zip_descendants :=
             flag0 || !(nodeGroups chunk_size r.1).isEmpty } r.1,
           r.2 ++ (nodeGroups chunk_size r.1).enum.map
             (fun gi => ((d.path, gi.1), gi.2)))
       else (.node { d with has_zip_descendants := flag0 } r.1, r.2)) := rfl

/-- C5: a node produces archive groups exactly when the trigger
`size > C or depth ≤ D` holds *and* it has at least one eligible child;
in particular, since the root sits at depth 1 and `D ≥ 1`, the
partition root always enters the splitting branch, and it groups its
children whenever an eligible child exists — independently of the
tree's size being below `C`. -/
theorem C5_split_trigger_iff :
    (∀ chunk_size min_zip_depth dep : Nat, ∀ d : PathData, ∀ cs : List PTree,
      ((find_splits chunk_size min_zip_depth dep (.node d cs)).2.length >
        (find_splits_list chunk_size min_zip_depth (dep + 1) cs).2.length ↔
      ((d.size > chunk_size ∨ dep ≤ min_zip_depth) ∧
        eligibleChildren (find_splits_list chunk_size min_zip_depth (dep + 1) cs).1
          ≠ []))) ∧
    (∀ chunk_size min_zip_depth : Nat, ∀ d : PathData, ∀ cs : List PTree,
      1 ≤ min_zip_depth →
      ((find_splits chunk_size min_zip_depth 1 (.node d cs)).2.length >
        (find_splits_list chunk_size min_zip_depth 2 cs).2.length ↔
        eligibleChildren (find_splits_list chunk_size min_zip_depth 2 cs).1 ≠ [])) := by
  have main : ∀ chunk_size min_zip_depth dep : Nat, ∀ d : PathData, ∀ cs : List PTree,
      ((find_splits chunk_size min_zip_depth dep (.node d cs)).2.length >
        (find_splits_list chunk_size min_zip_depth (dep + 1) cs).2.length ↔
      ((d.size > chunk_size ∨ dep ≤ min_zip_depth) ∧
        eligibleChildren (find_splits_list chunk_size min_zip_depth (dep + 1) cs).1
          ≠ [])) := by
    intro chunk_size min_zip_depth dep d cs
    rw [find_splits_node]
    simp only []
    split
    · next hcond =>
      simp only [Bool.or_eq_true, decide_eq_true_eq] at hcond
      simp only [List.length_append, List.length_map, List.enum_length]
      constructor
      · intro h
        refine ⟨hcond, ?_⟩
        intro helig
        rw [← nodeGroups_eq_nil_iff chunk_size] at helig
        rw [helig] at h
        simp at h
      · intro ⟨_, helig⟩
        have hng : nodeGroups chunk_size
            (find_splits_list chunk_size min_zip_depth (dep + 1) cs).1 ≠ [] :=
          fun hh => helig ((nodeGroups_eq_nil_iff _ _).1 hh)
        have hpos := List.length_pos.2 hng
        omega
    · next hcond =>
      simp only [Bool.or_eq_true, decide_eq_true_eq] at hcond
      push_neg at hcond
      dsimp only
      constructor
      · intro h
        exact absurd h (lt_irrefl _)
      · rintro ⟨h1 | h2, _⟩
        · exact absurd h1 (not_lt.2 hcond.1)
        · exact absurd h2 (not_le.2 hcond.2)
  exact ⟨main, fun chunk_size min_zip_depth d cs hD => by
    rw [main chunk_size min_zip_depth 1 d cs]
    simp [hD]⟩

/-- Concrete instantiation of `C5_split_trigger_iff`: a 10-byte root
(below `C = 100`) at depth 1 with one eligible file child still
produces a group. -/
theorem C5_split_trigger_iff_witness :
    (find_splits 100 1 1 (.node ⟨"/r", true, false, false, 10⟩ [mfile "/r/a" 10])).2.length >
      (find_splits_list 100 1 2 [mfile "/r/a" 10]).2.length :=
  (C5_split_trigger_iff.2 100 1 ⟨"/r", true, false, false, 10⟩ [mfile "/r/a" 10]
    (by decide)).2 (by decide)

mutual
/-- A leaf reachable from this node without crossing into an archive:
the traversal of `validate_ziptree` reaches it (archives' contents are
skipped via `SkipBranch`).  Both childless archives and childless
non-archive nodes count — precisely the two error cases. -/
inductive VisibleLeafT : PTree → Prop where
  | leaf : ∀ d, VisibleLeafT (.node d [])
  | child : ∀ d cs, d.is_zip = false → VisibleLeafF cs → VisibleLeafT (.node d cs)

/-- Some tree of the forest has a visible leaf. -/
inductive VisibleLeafF : List PTree → Prop where
  | head : ∀ t ts, VisibleLeafT t → VisibleLeafF (t :: ts)
  | tail : ∀ t ts, VisibleLeafF ts → VisibleLeafF (t :: ts)
end

mutual
/-- `validate_ziptree` errors on a node exactly when a leaf is
reachable from it without an intervening archive. -/
theorem validateT_isSome_iff :
    ∀ t : PTree, ((validateT t).isSome = true ↔ VisibleLeafT t)
  | .node d cs => by
    simp only [validateT]
    by_cases hz : d.is_zip = true
    · rw [if_pos hz]
      cases cs with
      | nil =>
        simp only [List.isEmpty_nil, if_true, Option.isSome_some]
        exact ⟨fun _ => VisibleLeafT.leaf d, fun _ => trivial⟩
      | cons c cs' =>
        simp only [List.isEmpty_cons, Bool.false_eq_true, if_false, Option.isSome_none]
        constructor
        · intro h
          exact absurd h (by simp)
        · intro hv
          cases hv with
          | child _ _ hzf _ => rw [hz] at hzf; exact absurd hzf (by simp)
    · rw [if_neg hz]
      cases cs with
      | nil =>
        simp only [List.isEmpty_nil, if_true, Option.isSome_some]
        exact ⟨fun _ => VisibleLeafT.leaf d, fun _ => trivial⟩
      | cons c cs' =>
        simp only [List.isEmpty_cons, Bool.false_eq_true, if_false]
        constructor
        · intro h
          exact VisibleLeafT.child d _ (by simpa using hz) ((validateF_isSome_iff _).1 h)
        · intro hv
          cases hv with
          | child _ _ _ hfl => exact (validateF_isSome_iff _).2 hfl
  termination_by structural t => t

/-- Forest version of `validateT_isSome_iff`. -/
theorem validateF_isSome_iff :
    ∀ ts : List PTree, ((validateF ts).isSome = true ↔ VisibleLeafF ts)
  | [] => by
    simp only [validateF, Option.isSome_none]
    constructor
    · intro h
      exact absurd h (by simp)
    · intro hv
      cases hv
  | t :: ts => by
    simp only [validateF]
    cases hvt : validateT t with
    | some e =>
      simp only [Option.isSome_some]
      exact ⟨fun _ => VisibleLeafF.head t ts ((validateT_isSome_iff t).1 (by simp [hvt])),
        fun _ => trivial⟩
    | none =>
      constructor
      · intro h
        exact VisibleLeafF.tail t ts ((validateF_isSome_iff ts).1 h)
      · intro hv
        cases hv with
        | head _ _ hvt' =>
          have := (validateT_isSome_iff t).2 hvt'
          rw [hvt] at this
          exact absurd this (by simp)
        | tail _ _ hvf => exact (validateF_isSome_iff ts).2 hvf
  termination_by structural ts => ts
end

mutual
/-- A childless archive node occurs somewhere in the tree. -/
def hasChildlessZipT : PTree → Bool
  | .node d cs => (d.is_zip && cs.isEmpty) || hasChildlessZipF cs
  termination_by structural t => t

def hasChildlessZipF : List PTree → Bool
  | [] => false
  | t :: ts => hasChildlessZipT t || hasChildlessZipF ts
  termination_by structural ts => ts
end

mutual
/-- A non-archive leaf reachable without crossing into an archive. -/
def outerNonZipLeafT : PTree → Bool
  | .node d cs =>
    if d.is_zip then false else if cs.isEmpty then true else outerNonZipLeafF cs
  termination_by structural t => t

def outerNonZipLeafF : List PTree → Bool
  | [] => false
  | t :: ts => outerNonZipLeafT t || outerNonZipLeafF ts
  termination_by structural ts => ts
end

/-- Modelled from the claim's words (C7): the chunked tree contains a
childless Archive node, or a non-Archive leaf below the partition root
*outside the root's direct file children* (direct file children of the
root are exempt), or a pre-chunk leaf path that is lost, or one that is
present twice afterwards. -/
def claimC7Violation (raw_files : List String) (result : List PTree) : Bool :=
  hasChildlessZipF result ||
  (match result with
   | [PTree.node _ rcs] =>
       rcs.any (fun c =>
         if c.children.isEmpty && !c.data.is_zip && !c.data.is_dir then false
         else outerNonZipLeafT c)
   | other => outerNonZipLeafF other) ||
  raw_files.any (fun p => !(leafPathsF result).contains p) ||
  raw_files.any (fun p => 2 ≤ (leafPathsF result).count p)

/-- A chunked tree whose root keeps one direct file child `/r/a` next
to a well-formed archive: the claim's failure predicate is false here,
yet the validator raises. -/
def c7Forest : List PTree :=
  [PTree.node ⟨"/r", true, false, true, 3⟩
    [mfile "/r/a" 1,
     PTree.node ⟨"/r_0.zip", false, true, false, 2⟩ [mfile "/r/b" 2]]]

/-- C7 (counterexample): on `c7Forest` — no childless archive, no leaf
outside the root's direct file children, no loss, no duplication, so
the claim says no fatal error — the source's checks still raise
(`validate_ziptree` rejects the root's direct file child `/r/a` as a
non-zipped leaf), refuting the claimed "exactly when". -/
theorem C7_counterexample_root_file_child :
    (ziptreeChecks ["/r/a", "/r/b"] c7Forest = .error ChunkError.nonZippedLeaf) ∧
    claimC7Violation ["/r/a", "/r/b"] c7Forest = false := by
  refine ⟨by rfl, by decide⟩

/-- C7 (amended): the post-chunking checks raise a fatal error exactly
when a pre-chunking leaf path is missing afterwards, or some leaf —
archive or not, the root's direct file children included — is reachable
without an intervening archive ancestor (a childless archive, or any
non-archive leaf outside every archive).  Leaf duplication is not
detected (the lost-file check compares sets), and the tree is never
repaired: the input forest is returned unchanged on success. -/
theorem C7_amended_checks_iff (raw_files : List String) (result : List PTree) :
    ((∃ e, ziptreeChecks raw_files result = .error e) ↔
      ((∃ p ∈ raw_files, ¬ p ∈ leafPathsF result) ∨ VisibleLeafF result)) ∧
    (ziptreeChecks raw_files result ≠ .error ChunkError.missingFiles →
      ∀ out, ziptreeChecks raw_files result = .ok out → out = result) := by
  constructor
  · unfold ziptreeChecks
    by_cases hmiss : raw_files.any (fun p => !(leafPathsF result).contains p) = true
    · rw [if_pos hmiss]
      constructor
      · intro _
        left
        rcases List.any_eq_true.1 hmiss with ⟨p, hp, hnp⟩
        exact ⟨p, hp, by simpa using hnp⟩
      · intro _
        exact ⟨ChunkError.missingFiles, rfl⟩
    · rw [if_neg hmiss]
      cases hv : validateF result with
      | some e =>
        constructor
        · intro _
          right
          exact (validateF_isSome_iff result).1 (by simp [hv])
        · intro _
          exact ⟨e, rfl⟩
      | none =>
        constructor
        · rintro ⟨e, he⟩
          exact absurd he (by simp)
        · rintro (⟨p, hp, hnp⟩ | hvis)
          · exact absurd (List.any_eq_true.2 ⟨p, hp, by simpa using hnp⟩) hmiss
          · have := (validateF_isSome_iff result).2 hvis
            rw [hv] at this
            exact absurd this (by simp)
  · intro _ out hout
    unfold ziptreeChecks at hout
    split at hout
    · exact absurd hout (by simp)
    · split at hout
      · exact absurd hout (by simp)
      · injection hout with h
        exact h.symm

/-- Concrete instantiation of `C7_amended_checks_iff`: the checks
reject `c7Forest` (its root's file child is a visible leaf). -/
theorem C7_amended_checks_iff_witness :
    ∃ e, ziptreeChecks ["/r/a", "/r/b"] c7Forest = .error e :=
  (C7_amended_checks_iff ["/r/a", "/r/b"] c7Forest).1.2
    (Or.inr (VisibleLeafF.head _ _
      (VisibleLeafT.child _ _ rfl
        (VisibleLeafF.head _ _ (VisibleLeafT.leaf _)))))

mutual
/-- Paths of all nodes of a tree. -/
def allPathsT : PTree → List String
  | .node d cs => d.path :: allPathsF cs
  termination_by structural t => t

def allPathsF : List PTree → List String
  | [] => []
  | t :: ts => allPathsT t ++ allPathsF ts
  termination_by structural ts => ts
end

mutual
/-- Paths of the internal (non-leaf) nodes of a tree. -/
def internalPathsT : PTree → List String
  | .node d cs => if cs.isEmpty then [] else d.path :: internalPathsF cs
  termination_by structural t => t

def internalPathsF : List PTree → List String
  | [] => []
  | t :: ts => internalPathsT t ++ internalPathsF ts
  termination_by structural ts => ts
end

mutual
theorem leafPathsT_subset_allPathsT :
    ∀ t : PTree, ∀ p, p ∈ leafPathsT t → p ∈ allPathsT t
  | .node d cs => by
    intro p hp
    simp only [leafPathsT] at hp
    simp only [allPathsT]
    split at hp
    · simp at hp
      simp [hp]
    · exact List.mem_cons_of_mem _ (leafPathsF_subset_allPathsF cs p hp)
  termination_by structural t => t

theorem leafPathsF_subset_allPathsF :
    ∀ ts : List PTree, ∀ p, p ∈ leafPathsF ts → p ∈ allPathsF ts
  | [] => by intro p hp; simp [leafPathsF] at hp
  | t :: ts => by
    intro p hp
    simp only [leafPathsF] at hp
    simp only [allPathsF, List.mem_append] at *
    rcases hp with hp | hp
    · exact Or.inl (leafPathsT_subset_allPathsT t p hp)
    · exact Or.inr (leafPathsF_subset_allPathsF ts p hp)
  termination_by structural ts => ts
end

mutual
theorem internalPathsT_subset_allPathsT :
    ∀ t : PTree, ∀ p, p ∈ internalPathsT t → p ∈ allPathsT t
  | .node d cs => by
    intro p hp
    simp only [internalPathsT] at hp
    simp only [allPathsT]
    split at hp
    · simp at hp
    · simp only [List.mem_cons] at hp
      rcases hp with rfl | hp
      · exact List.mem_cons_self _ _
      · exact List.mem_cons_of_mem _ (internalPathsF_subset_allPathsF cs p hp)
  termination_by structural t => t

theorem internalPathsF_subset_allPathsF :
    ∀ ts : List PTree, ∀ p, p ∈ internalPathsF ts → p ∈ allPathsF ts
  | [] => by intro p hp; simp [internalPathsF] at hp
  | t :: ts => by
    intro p hp
    simp only [internalPathsF] at hp
    simp only [allPathsF, List.mem_append] at *
    rcases hp with hp | hp
    · exact Or.inl (internalPathsT_subset_allPathsT t p hp)
    · exact Or.inr (internalPathsF_subset_allPathsF ts p hp)
  termination_by structural ts => ts
end

mutual
/-- With globally distinct node paths, no path is simultaneously the
path of an internal node and of a leaf. -/
theorem internal_leaf_disjointT :
    ∀ t : PTree, (allPathsT t).Nodup →
      ∀ p, p ∈ internalPathsT t → p ∈ leafPathsT t → False
  | .node d cs => by
    intro hnd p hint hleaf
    simp only [internalPathsT] at hint
    simp only [leafPathsT] at hleaf
    split at hint
    · simp at hint
    · next hne =>
      rw [if_neg hne] at hleaf
      simp only [allPathsT, List.nodup_cons] at hnd
      simp only [List.mem_cons] at hint
      rcases hint with rfl | hint
      · exact hnd.1 (leafPathsF_subset_allPathsF cs _ hleaf)
      · exact internal_leaf_disjointF cs hnd.2 p hint hleaf
  termination_by structural t => t

theorem internal_leaf_disjointF :
    ∀ ts : List PTree, (allPathsF ts).Nodup →
      ∀ p, p ∈ internalPathsF ts → p ∈ leafPathsF ts → False
  | [] => by intro _ p hint _; simp [internalPathsF] at hint
  | t :: ts => by
    intro hnd p hint hleaf
    simp only [internalPathsF, List.mem_append] at hint
    simp only [leafPathsF, List.mem_append] at hleaf
    simp only [allPathsF, List.nodup_append] at hnd
    rcases hint with hint | hint <;> rcases hleaf with hleaf | hleaf
    · exact internal_leaf_disjointT t hnd.1 p hint hleaf
    · exact hnd.2.2 (internalPathsT_subset_allPathsT t p hint)
        (leafPathsF_subset_allPathsF ts p hleaf)
    · exact hnd.2.2 (leafPathsT_subset_allPathsT t p hleaf)
        (internalPathsF_subset_allPathsF ts p hint)
    · exact internal_leaf_disjointF ts hnd.2.1 p hint hleaf
  termination_by structural ts => ts
end

/-- Leaf paths of an optional tree. -/
def leafPathsO : Option PTree → List String
  | none => []
  | some t => leafPathsT t

mutual
/-- When the kept paths avoid every internal node's path, filtering
keeps exactly the kept leaves. -/
theorem filtered_leafPathsT (keep : String → Bool) :
    ∀ t : PTree, (∀ q ∈ internalPathsT t, keep q = false) →
      leafPathsO (filteredT keep t) = (leafPathsT t).filter keep
  | .node d cs => by
    intro hint
    simp only [filteredT]
    cases cs with
    | nil =>
      simp only [filteredF]
      by_cases hk : keep d.path = true
      · rw [if_pos (by simp [hk])]
        simp [leafPathsO, leafPathsT, hk]
      · rw [if_neg (by simp [hk])]
        simp only [Bool.not_eq_true] at hk
        simp [leafPathsO, leafPathsT, hk]
    | cons c cs'' =>
      have hne : (c :: cs'').isEmpty = false := rfl
      have hintF : ∀ q ∈ internalPathsF (c :: cs''), keep q = false := by
        intro q hq
        refine hint q ?_
        simp only [internalPathsT, hne, Bool.false_eq_true, if_false]
        exact List.mem_cons_of_mem _ hq
      have hrec := filtered_leafPathsF keep (c :: cs'') hintF
      have hkeepd : keep d.path = false := by
        refine hint d.path ?_
        simp only [internalPathsT, hne, Bool.false_eq_true, if_false]
        exact List.mem_cons_self _ _
      have hleafT : leafPathsT (.node d (c :: cs'')) = leafPathsF (c :: cs'') := by
        simp [leafPathsT, hne]
      rw [hleafT, hkeepd]
      cases hcs' : filteredF keep (c :: cs'') with
      | nil =>
        rw [hcs'] at hrec
        simp only [leafPathsF] at hrec
        simp only [List.isEmpty_nil, Bool.not_true, Bool.or_false, Bool.false_eq_true,
          if_false]
        exact hrec
      | cons f fs =>
        rw [hcs'] at hrec
        simp only [List.isEmpty_cons, Bool.not_false, Bool.or_true, if_true]
        simp only [leafPathsO, leafPathsT, List.isEmpty_cons, Bool.false_eq_true, if_false]
        exact hrec
  termination_by structural t => t

/-- Forest version of `filtered_leafPathsT`. -/
theorem filtered_leafPathsF (keep : String → Bool) :
    ∀ ts : List PTree, (∀ q ∈ internalPathsF ts, keep q = false) →
      leafPathsF (filteredF keep ts) = (leafPathsF ts).filter keep
  | [] => by intro _; simp [filteredF, leafPathsF]
  | t :: ts => by
    intro hint
    have h1 := filtered_leafPathsT keep t (fun q hq => hint q
      (by simp only [internalPathsF, List.mem_append]; exact Or.inl hq))
    have h2 := filtered_leafPathsF keep ts (fun q hq => hint q
      (by simp only [internalPathsF, List.mem_append]; exact Or.inr hq))
    simp only [filteredF]
    cases hft : filteredT keep t with
    | none =>
      rw [hft] at h1
      simp only [leafPathsO] at h1
      simp only [leafPathsF, List.filter_append, ← h1, List.nil_append]
      exact h2
    | some t' =>
      rw [hft] at h1
      simp only [leafPathsO] at h1
      simp only [leafPathsF, List.filter_append, h1, h2]
  termination_by structural ts => ts
end

mutual
/-- `populate_filesize` only rewrites sizes: the leaf paths are
untouched. -/
theorem populateT_leafPaths : ∀ t : PTree, leafPathsT (populateT t) = leafPathsT t
  | .node d cs => by
    cases cs with
    | nil =>
      simp only [populateT, populateF, leafPathsT, List.isEmpty_nil, if_true]
      split <;> rfl
    | cons c cs' =>
      simp only [populateT, populateF, leafPathsT, List.isEmpty_cons,
        Bool.false_eq_true, if_false]
      simp only [leafPathsF]
      rw [populateT_leafPaths c, populateF_leafPaths cs']
  termination_by structural t => t

/-- Forest version of `populateT_leafPaths`. -/
theorem populateF_leafPaths : ∀ ts : List PTree,
    leafPathsF (populateF ts) = leafPathsF ts
  | [] => rfl
  | t :: ts => by
    simp only [populateF, leafPathsF]
    rw [populateT_leafPaths t, populateF_leafPaths ts]
  termination_by structural ts => ts
end

/-- `populate_filesize` on a whole tree object preserves leaf paths. -/
theorem populateTree_leafPaths (ts : List PTree) :
    leafPathsF (populateTree ts) = leafPathsF ts := by
  cases ts with
  | nil => rfl
  | cons r rest =>
    simp only [populateTree, leafPathsF]
    rw [populateT_leafPaths r]

/-- Leaf paths of one carved-out partition subtree: exactly the source
leaves belonging to the group. -/
theorem part_leafPaths (tree : List PTree) (g : List String)
    (hnodup : (allPathsF tree).Nodup) (hsub : ∀ p ∈ g, p ∈ leafPathsF tree) :
    leafPathsF (populateTree (filteredF (fun p => g.contains p) tree)) =
      (leafPathsF tree).filter (fun p => g.contains p) := by
  rw [populateTree_leafPaths]
  refine filtered_leafPathsF _ tree ?_
  intro q hq
  by_contra hc
  have hcq : g.contains q = true := by
    revert hc
    cases g.contains q <;> simp
  have hqleaf : q ∈ leafPathsF tree := hsub q (by simpa using hcq)
  exact internal_leaf_disjointF tree hnodup q hq hqleaf

/-- C3: whenever `partition_tree_by_fnmatches` succeeds on a tree whose
node paths are globally distinct, the returned partitions are a
leaf-exact cover of the source: a path is a leaf of some partition iff
it is a leaf of the source tree, and distinct partitions' leaf sets are
pairwise disjoint. -/
theorem C3_partition_leaf_exact_cover (tree : List PTree)
    (patterns : List (String × Option String)) (default_groupname : String)
    (parts : List (String × List PTree))
    (hnodup : (allPathsF tree).Nodup)
    (hok : partition_tree_by_fnmatches tree patterns default_groupname = .ok parts) :
    (∀ p, (∃ part ∈ parts, p ∈ leafPathsF part.2) ↔ p ∈ leafPathsF tree) ∧
    parts.Pairwise (fun u v => ∀ p, p ∈ leafPathsF u.2 → p ∈ leafPathsF v.2 → False) := by
  unfold partition_tree_by_fnmatches at hok
  split at hok
  · exact absurd hok (by simp)
  · dsimp only at hok
    split at hok
    · exact absurd hok (by simp)
    · next hdisj =>
      split at hok
      · exact absurd hok (by simp)
      · next hcover =>
        injection hok with hok
        have hdisjB : pairwiseDisjointB
            ((matchedLeafGroups tree patterns default_groupname).map Prod.snd) = true := by
          simpa using hdisj
        have hcoverB : (∀ x ∈ leafPathsF tree, ∃ n g,
              (n, g) ∈ matchedLeafGroups tree patterns default_groupname ∧ x ∈ g) ∧
            (∀ (n : String) (g : List String),
              (n, g) ∈ matchedLeafGroups tree patterns default_groupname →
                ∀ x ∈ g, x ∈ leafPathsF tree) := by
          simpa using hcover
        have hsubG : ∀ g ∈ matchedLeafGroups tree patterns default_groupname,
            ∀ p ∈ g.2, p ∈ leafPathsF tree := by
          intro g hg p hp
          exact hcoverB.2 g.1 g.2 hg p hp
        have hpartEq : ∀ g ∈ matchedLeafGroups tree patterns default_groupname,
            leafPathsF (populateTree (filteredF (fun p => g.2.contains p) tree)) =
              (leafPathsF tree).filter (fun p => g.2.contains p) := by
          intro g hg
          exact part_leafPaths tree g.2 hnodup (hsubG g hg)
        subst hok
        constructor
        · intro p
          constructor
          · rintro ⟨part, hpart, hp⟩
            rcases List.mem_filter.1 hpart with ⟨hmap, _⟩
            rcases List.mem_map.1 hmap with ⟨g, hg, rfl⟩
            rw [hpartEq g hg] at hp
            exact (List.mem_filter.1 hp).1
          · intro hp
            rcases hcoverB.1 p hp with ⟨n, gl, hg, hgp⟩
            refine ⟨(n, populateTree (filteredF (fun q => gl.contains q) tree)),
              ?_, ?_⟩
            · refine List.mem_filter.2 ⟨List.mem_map.2 ⟨(n, gl), hg, rfl⟩, ?_⟩
              have hpmem : p ∈ leafPathsF
                  (populateTree (filteredF (fun q => gl.contains q) tree)) := by
                rw [hpartEq (n, gl) hg]
                exact List.mem_filter.2 ⟨hp, by simpa using hgp⟩
              cases hfe : populateTree (filteredF (fun q => gl.contains q) tree) with
              | nil =>
                rw [hfe] at hpmem
                simp [leafPathsF] at hpmem
              | cons f fs => simp
            · rw [hpartEq (n, gl) hg]
              exact List.mem_filter.2 ⟨hp, by simpa using hgp⟩
        · have hpwG := List.pairwise_map.1 (pairwiseDisjointB_pairwise hdisjB)
          have hpwMapped : ((matchedLeafGroups tree patterns default_groupname).map
              (fun g => (g.1, populateTree (filteredF (fun p => g.2.contains p) tree)))).Pairwise
              (fun u v => ∀ p, p ∈ leafPathsF u.2 → p ∈ leafPathsF v.2 → False) := by
            refine List.pairwise_map.2 ?_
            refine List.Pairwise.imp_of_mem ?_ hpwG
            intro g h hg hh hR p hpu hpv
            rw [hpartEq g hg] at hpu
            rw [hpartEq h hh] at hpv
            exact hR p (by simpa using (List.mem_filter.1 hpu).2)
              (by simpa using (List.mem_filter.1 hpv).2)
          exact hpwMapped.sublist (List.filter_sublist _)

/-- The tree of the spec's Example 3. -/
def c3WTree : List PTree :=
  [mdir "/root" 30
    [mdir "/root/logs" 10 [mfile "/root/logs/x.txt" 10],
     mdir "/root/data" 20 [mfile "/root/data/y.txt" 20]]]

/-- The partitions the source computes for Example 3. -/
def c3WParts : List (String × List PTree) :=
  [("logs", [mdir "/root" 10 [mdir "/root/logs" 10 [mfile "/root/logs/x.txt" 10]]]),
   ("metadata", [mdir "/root" 20 [mdir "/root/data" 20 [mfile "/root/data/y.txt" 20]]])]

/-- Concrete instantiation of `C3_partition_leaf_exact_cover` on the
spec's Example 3: pattern `*/logs/*` over `/root/logs/x.txt` and
`/root/data/y.txt`. -/
theorem C3_partition_leaf_exact_cover_witness :
    "/root/logs/x.txt" ∈ leafPathsF c3WTree :=
  ((C3_partition_leaf_exact_cover c3WTree [("logs", some "*/logs/*")] "metadata"
      c3WParts (by decide) (by rfl)).1 "/root/logs/x.txt").1
    ⟨("logs", [mdir "/root" 10 [mdir "/root/logs" 10 [mfile "/root/logs/x.txt" 10]]]),
      by decide, by decide⟩

/-! ### No-nesting invariant for the chunker (claim C4) -/

mutual
/-- No archive node anywhere in the tree. -/
def zipFreeT : PTree → Bool
  | .node d cs => !d.is_zip && zipFreeF cs
  termination_by structural t => t

def zipFreeF : List PTree → Bool
  | [] => true
  | t :: ts => zipFreeT t && zipFreeF ts
  termination_by structural ts => ts
end

mutual
/-- No archive node strictly inside another archive: every archive's
contents are archive-free. -/
def noNestedT : PTree → Bool
  | .node d cs => if d.is_zip then zipFreeF cs else noNestedF cs
  termination_by structural t => t

def noNestedF : List PTree → Bool
  | [] => true
  | t :: ts => noNestedT t && noNestedF ts
  termination_by structural ts => ts
end

mutual
/-- A non-archive node with path `q` occurs in the tree (the shape the
`data_id` lookup of a recorded split matches). -/
def containsPNT (q : String) : PTree → Bool
  | .node d cs => (d.path == q && !d.is_zip) || containsPNF q cs
  termination_by structural t => t

def containsPNF (q : String) : List PTree → Bool
  | [] => false
  | t :: ts => containsPNT q t || containsPNF q ts
  termination_by structural ts => ts
end

mutual
/-- No non-archive node with path `q` sits strictly inside an
archive. -/
def keyOutsideT (q : String) : PTree → Bool
  | .node d cs => if d.is_zip then !containsPNF q cs else keyOutsideF q cs
  termination_by structural t => t

def keyOutsideF (q : String) : List PTree → Bool
  | [] => true
  | t :: ts => keyOutsideT q t && keyOutsideF q ts
  termination_by structural ts => ts
end

mutual
/-- A freshly scanned tree: no archives, all
`has_zip_descendants` flags clear. -/
def cleanT : PTree → Bool
  | .node d cs => !d.is_zip && !d.has_zip_descendants && cleanF cs
  termination_by structural t => t

def cleanF : List PTree → Bool
  | [] => true
  | t :: ts => cleanT t && cleanF ts
  termination_by structural ts => ts
end

theorem zipFreeF_forall (ts : List PTree) :
    zipFreeF ts = true ↔ ∀ t ∈ ts, zipFreeT t = true := by
  induction ts with
  | nil => simp [zipFreeF]
  | cons t ts ih => simp [zipFreeF, ih]

theorem noNestedF_forall (ts : List PTree) :
    noNestedF ts = true ↔ ∀ t ∈ ts, noNestedT t = true := by
  induction ts with
  | nil => simp [noNestedF]
  | cons t ts ih => simp [noNestedF, ih]

theorem containsPNF_exists (q : String) (ts : List PTree) :
    containsPNF q ts = true ↔ ∃ t ∈ ts, containsPNT q t = true := by
  induction ts with
  | nil => simp [containsPNF]
  | cons t ts ih => simp [containsPNF, ih]

theorem keyOutsideF_forall (q : String) (ts : List PTree) :
    keyOutsideF q ts = true ↔ ∀ t ∈ ts, keyOutsideT q t = true := by
  induction ts with
  | nil => simp [keyOutsideF]
  | cons t ts ih => simp [keyOutsideF, ih]

theorem cleanF_forall (ts : List PTree) :
    cleanF ts = true ↔ ∀ t ∈ ts, cleanT t = true := by
  induction ts with
  | nil => simp [cleanF]
  | cons t ts ih => simp [cleanF, ih]

mutual
theorem zipFreeT_noNestedT : ∀ t : PTree, zipFreeT t = true → noNestedT t = true
  | .node d cs => by
    intro h
    simp only [zipFreeT, Bool.and_eq_true, Bool.not_eq_true'] at h
    simp only [noNestedT, h.1, Bool.false_eq_true, if_false]
    exact zipFreeF_noNestedF cs h.2
  termination_by structural t => t

theorem zipFreeF_noNestedF : ∀ ts : List PTree, zipFreeF ts = true → noNestedF ts = true
  | [] => by intro _; rfl
  | t :: ts => by
    intro h
    simp only [zipFreeF, Bool.and_eq_true] at h
    simp only [noNestedF, Bool.and_eq_true]
    exact ⟨zipFreeT_noNestedT t h.1, zipFreeF_noNestedF ts h.2⟩
  termination_by structural ts => ts
end

mutual
theorem zipFreeT_keyOutsideT (q : String) :
    ∀ t : PTree, zipFreeT t = true → keyOutsideT q t = true
  | .node d cs => by
    intro h
    simp only [zipFreeT, Bool.and_eq_true, Bool.not_eq_true'] at h
    simp only [keyOutsideT, h.1, Bool.false_eq_true, if_false]
    exact zipFreeF_keyOutsideF q cs h.2
  termination_by structural t => t

theorem zipFreeF_keyOutsideF (q : String) :
    ∀ ts : List PTree, zipFreeF ts = true → keyOutsideF q ts = true
  | [] => by intro _; rfl
  | t :: ts => by
    intro h
    simp only [zipFreeF, Bool.and_eq_true] at h
    simp only [keyOutsideF, Bool.and_eq_true]
    exact ⟨zipFreeT_keyOutsideT q t h.1, zipFreeF_keyOutsideF q ts h.2⟩
  termination_by structural ts => ts
end

mutual
theorem cleanT_zipFreeT : ∀ t : PTree, cleanT t = true → zipFreeT t = true
  | .node d cs => by
    intro h
    simp only [cleanT, Bool.and_eq_true] at h
    simp only [zipFreeT, Bool.and_eq_true]
    exact ⟨h.1.1, cleanF_zipFreeF cs h.2⟩
  termination_by structural t => t

theorem cleanF_zipFreeF : ∀ ts : List PTree, cleanF ts = true → zipFreeF ts = true
  | [] => by intro _; rfl
  | t :: ts => by
    intro h
    simp only [cleanF, Bool.and_eq_true] at h
    simp only [zipFreeF, Bool.and_eq_true]
    exact ⟨cleanT_zipFreeT t h.1, cleanF_zipFreeF ts h.2⟩
  termination_by structural ts => ts
end

mutual
theorem containsPNT_mem_allPaths (q : String) :
    ∀ t : PTree, containsPNT q t = true → q ∈ allPathsT t
  | .node d cs => by
    intro h
    simp only [containsPNT, Bool.or_eq_true, Bool.and_eq_true, beq_iff_eq] at h
    simp only [allPathsT, List.mem_cons]
    rcases h with ⟨rfl, _⟩ | h
    · exact Or.inl rfl
    · exact Or.inr (containsPNF_mem_allPaths q cs h)
  termination_by structural t => t

theorem containsPNF_mem_allPaths (q : String) :
    ∀ ts : List PTree, containsPNF q ts = true → q ∈ allPathsF ts
  | [] => by intro h; simp [containsPNF] at h
  | t :: ts => by
    intro h
    simp only [containsPNF, Bool.or_eq_true] at h
    simp only [allPathsF, List.mem_append]
    rcases h with h | h
    · exact Or.inl (containsPNT_mem_allPaths q t h)
    · exact Or.inr (containsPNF_mem_allPaths q ts h)
  termination_by structural ts => ts
end

/-- A member path of a forest element is a path of the forest. -/
theorem allPathsT_subset_of_mem {t : PTree} {ts : List PTree} (h : t ∈ ts) :
    ∀ q ∈ allPathsT t, q ∈ allPathsF ts := by
  induction ts with
  | nil => exact absurd h (List.not_mem_nil t)
  | cons s ts ih =>
    intro q hq
    simp only [allPathsF, List.mem_append]
    rcases List.mem_cons.1 h with rfl | hmem
    · exact Or.inl hq
    · exact Or.inr (ih hmem q hq)

/-- The `data_id` keys of a list of recorded splits. -/
def keysOf (S : List Split) : List String := S.map (fun s => s.1.1)

theorem keysOf_append (S₁ S₂ : List Split) :
    keysOf (S₁ ++ S₂) = keysOf S₁ ++ keysOf S₂ := List.map_append _ _ _

theorem find_splits_list_cons (chunk_size min_zip_depth dep : Nat) (t : PTree)
    (ts : List PTree) :
    find_splits_list chunk_size min_zip_depth dep (t :: ts) =
      ((find_splits chunk_size min_zip_depth dep t).1 ::
          (find_splits_list chunk_size min_zip_depth dep ts).1,
        (find_splits chunk_size min_zip_depth dep t).2 ++
          (find_splits_list chunk_size min_zip_depth dep ts).2) := rfl

/-- Membership in the sorted eligible children. -/
theorem mem_eligibleChildren {m : PTree} {cs : List PTree} :
    m ∈ eligibleChildren cs ↔ m ∈ cs ∧ m.flag = false := by
  unfold eligibleChildren sortChildren
  rw [(List.perm_insertionSort _ _).mem_iff]
  simp [List.mem_filter]

/-- A group member is one of the sorted eligible children. -/
theorem mem_of_mem_nodeGroups {chunk_size : Nat} {cs : List PTree} {g : List PTree}
    {m : PTree} (hg : g ∈ nodeGroups chunk_size cs) (hm : m ∈ g) :
    m ∈ cs ∧ m.flag = false :=
  mem_eligibleChildren.1 (by
    rw [← nodeGroups_flatten chunk_size cs]
    exact List.mem_flatten.2 ⟨g, hg, hm⟩)

mutual
/-- Invariant of the `find_splits` pass on a clean tree with globally
distinct paths: the topology and paths are unchanged and stay
archive-free; the node's final flag says exactly whether its subtree
recorded any split; every recorded key is a path of the subtree; and
every group member is an archive-free, unflagged subtree none of whose
paths is a recorded key. -/
theorem find_splits_invariant :
    ∀ (t : PTree) (chunk_size min_zip_depth dep : Nat),
      cleanT t = true → (allPathsT t).Nodup →
      allPathsT (find_splits chunk_size min_zip_depth dep t).1 = allPathsT t ∧
      zipFreeT (find_splits chunk_size min_zip_depth dep t).1 = true ∧
      ((find_splits chunk_size min_zip_depth dep t).1.flag = true ↔
        (find_splits chunk_size min_zip_depth dep t).2 ≠ []) ∧
      (∀ s ∈ (find_splits chunk_size min_zip_depth dep t).2,
        s.1.1 ∈ allPathsT t ∧
        ∀ m ∈ s.2, zipFreeT m = true ∧ m.flag = false ∧
          (∀ q ∈ allPathsT m, q ∈ allPathsT t ∧
            q ∉ keysOf (find_splits chunk_size min_zip_depth dep t).2))
  | .node d cs => by
    intro chunk_size min_zip_depth dep hclean hnodup
    simp only [cleanT, Bool.and_eq_true, Bool.not_eq_true'] at hclean
    obtain ⟨⟨hdz, hdf⟩, hcleanF⟩ := hclean
    have hpaths : allPathsT (.node d cs) = d.path :: allPathsF cs := rfl
    rw [hpaths] at hnodup
    have hdnotin : d.path ∉ allPathsF cs := (List.nodup_cons.1 hnodup).1
    have hnodupF : (allPathsF cs).Nodup := (List.nodup_cons.1 hnodup).2
    obtain ⟨la, lb, lc, ld, le⟩ :=
      find_splits_list_invariant cs chunk_size min_zip_depth (dep + 1) hcleanF hnodupF
    rw [find_splits_node]
    simp only []
    split
    · -- split candidate: groups are recorded
      refine ⟨?_, ?_, ?_, ?_⟩
      · simp only [allPathsT, la, hpaths]
      · simp only [zipFreeT, hdz, Bool.not_false, Bool.true_and, lb]
      · simp only [PTree.flag, PTree.data, hdf, Bool.false_or]
        constructor
        · intro h
          rcases Bool.or_eq_true_iff.1 h with h | h
          · intro habs
            rcases List.append_eq_nil.1 habs with ⟨h1, _⟩
            exact (lc.1 h) h1
          · intro habs
            rcases List.append_eq_nil.1 habs with ⟨_, h2⟩
            rcases List.map_eq_nil_iff.1 h2 with henum
            have : nodeGroups chunk_size
                (find_splits_list chunk_size min_zip_depth (dep + 1) cs).1 = [] := by
              have := congrArg List.length henum
              simp only [List.enum_length, List.length_nil] at this
              exact List.eq_nil_of_length_eq_zero this
            rw [this] at h
            simp at h
        · intro h
          by_cases hgs : nodeGroups chunk_size
              (find_splits_list chunk_size min_zip_depth (dep + 1) cs).1 = []
          · have hr2 : (find_splits_list chunk_size min_zip_depth (dep + 1) cs).2 ≠ [] := by
              intro habs
              exact h (by simp [habs, hgs])
            exact Bool.or_eq_true_iff.2 (Or.inl (lc.2 hr2))
          · refine Bool.or_eq_true_iff.2 (Or.inr ?_)
            simpa using hgs
      · intro s hs
        rcases List.mem_append.1 hs with hs₁ | hs₂
        · obtain ⟨hkey, hmem⟩ := ld s hs₁
          refine ⟨by rw [hpaths]; exact List.mem_cons_of_mem _ hkey, ?_⟩
          intro m hm
          obtain ⟨hzf, hfl, hq⟩ := hmem m hm
          refine ⟨hzf, hfl, ?_⟩
          intro q hqm
          obtain ⟨hqin, hqkeys⟩ := hq q hqm
          refine ⟨by rw [hpaths]; exact List.mem_cons_of_mem _ hqin, ?_⟩
          rw [keysOf_append]
          intro habs
          rcases List.mem_append.1 habs with habs | habs
          · exact hqkeys habs
          · simp only [keysOf, List.map_map, List.mem_map] at habs
            obtain ⟨gi, _, hgi⟩ := habs
            have hdq : d.path = q := by simpa using hgi
            exact hdnotin (hdq ▸ hqin)
        · simp only [List.mem_map] at hs₂
          obtain ⟨gi, hgi, rfl⟩ := hs₂
          have hgmem : gi.2 ∈ nodeGroups chunk_size
              (find_splits_list chunk_size min_zip_depth (dep + 1) cs).1 := by
            have := List.enum_map_snd (nodeGroups chunk_size
              (find_splits_list chunk_size min_zip_depth (dep + 1) cs).1)
            rw [← this]
            exact List.mem_map.2 ⟨gi, hgi, rfl⟩
          refine ⟨by rw [hpaths]; exact List.mem_cons_self _ _, ?_⟩
          intro m hm
          obtain ⟨hmr, hmf⟩ := mem_of_mem_nodeGroups hgmem hm
          have hzf : zipFreeT m = true := (zipFreeF_forall _).1 lb m hmr
          have hmsub : ∀ q ∈ allPathsT m, q ∈ allPathsF cs := by
            intro q hq
            rw [← la]
            exact allPathsT_subset_of_mem hmr q hq
          refine ⟨hzf, hmf, ?_⟩
          intro q hqm
          refine ⟨by rw [hpaths]; exact List.mem_cons_of_mem _ (hmsub q hqm), ?_⟩
          rw [keysOf_append]
          intro habs
          rcases List.mem_append.1 habs with habs | habs
          · simp only [keysOf, List.mem_map] at habs
            obtain ⟨s', hs', hkey⟩ := habs
            exact (le s' hs' m hmr hmf) (hkey ▸ hqm)
          · simp only [keysOf, List.map_map, List.mem_map] at habs
            obtain ⟨gi', _, hgi'⟩ := habs
            have hdq : d.path = q := by simpa using hgi'
            exact hdnotin (hdq ▸ hmsub q hqm)
    · -- not a candidate: no groups of its own
      refine ⟨?_, ?_, ?_, ?_⟩
      · simp only [allPathsT, la, hpaths]
      · simp only [zipFreeT, hdz, Bool.not_false, Bool.true_and, lb]
      · simp only [PTree.flag, PTree.data, hdf, Bool.false_or]
        exact lc
      · intro s hs
        obtain ⟨hkey, hmem⟩ := ld s hs
        refine ⟨by rw [hpaths]; exact List.mem_cons_of_mem _ hkey, ?_⟩
        intro m hm
        obtain ⟨hzf, hfl, hq⟩ := hmem m hm
        refine ⟨hzf, hfl, ?_⟩
        intro q hqm
        obtain ⟨hqin, hqkeys⟩ := hq q hqm
        exact ⟨by rw [hpaths]; exact List.mem_cons_of_mem _ hqin, hqkeys⟩
  termination_by structural t => t

/-- Forest version of `find_splits_invariant`, plus: a processed child
whose flag stayed clear contains no recorded key among its paths. -/
theorem find_splits_list_invariant :
    ∀ (ts : List PTree) (chunk_size min_zip_depth dep : Nat),
      cleanF ts = true → (allPathsF ts).Nodup →
      allPathsF (find_splits_list chunk_size min_zip_depth dep ts).1 = allPathsF ts ∧
      zipFreeF (find_splits_list chunk_size min_zip_depth dep ts).1 = true ∧
      (((find_splits_list chunk_size min_zip_depth dep ts).1.any
          (fun c => c.flag) = true) ↔
        (find_splits_list chunk_size min_zip_depth dep ts).2 ≠ []) ∧
      (∀ s ∈ (find_splits_list chunk_size min_zip_depth dep ts).2,
        s.1.1 ∈ allPathsF ts ∧
        ∀ m ∈ s.2, zipFreeT m = true ∧ m.flag = false ∧
          (∀ q ∈ allPathsT m, q ∈ allPathsF ts ∧
            q ∉ keysOf (find_splits_list chunk_size min_zip_depth dep ts).2)) ∧
      (∀ s ∈ (find_splits_list chunk_size min_zip_depth dep ts).2,
        ∀ c ∈ (find_splits_list chunk_size min_zip_depth dep ts).1,
          c.flag = false → s.1.1 ∉ allPathsT c)
  | [] => by
    intro chunk_size min_zip_depth dep _ _
    refine ⟨rfl, rfl, by simp [find_splits_list], ?_, ?_⟩
    · intro s hs
      simp [find_splits_list] at hs
    · intro s hs
      simp [find_splits_list] at hs
  | t :: ts => by
    intro chunk_size min_zip_depth dep hclean hnodup
    simp only [cleanF, Bool.and_eq_true] at hclean
    have hpaths : allPathsF (t :: ts) = allPathsT t ++ allPathsF ts := rfl
    rw [hpaths] at hnodup
    rw [List.nodup_append] at hnodup
    obtain ⟨hnd₁, hnd₂, hdisj⟩ := hnodup
    obtain ⟨ta, tb, tc, td⟩ :=
      find_splits_invariant t chunk_size min_zip_depth dep hclean.1 hnd₁
    obtain ⟨la, lb, lc, ld, le⟩ :=
      find_splits_list_invariant ts chunk_size min_zip_depth dep hclean.2 hnd₂
    rw [find_splits_list_cons]
    simp only []
    refine ⟨?_, ?_, ?_, ?_, ?_⟩
    · simp only [allPathsF, ta, la, hpaths]
    · simp only [zipFreeF, tb, lb, Bool.and_self]
    · simp only [List.any_cons, Bool.or_eq_true, tc, lc]
      constructor
      · rintro (h | h) <;> intro habs <;> rcases List.append_eq_nil.1 habs with ⟨h1, h2⟩
        · exact h h1
        · exact h h2
      · intro h
        by_cases h1 : (find_splits chunk_size min_zip_depth dep t).2 = []
        · refine Or.inr ?_
          intro h2
          exact h (by simp [h1, h2])
        · exact Or.inl h1
    · intro s hs
      rcases List.mem_append.1 hs with hs₁ | hs₂
      · obtain ⟨hkey, hmem⟩ := td s hs₁
        refine ⟨by rw [hpaths]; exact List.mem_append_left _ hkey, ?_⟩
        intro m hm
        obtain ⟨hzf, hfl, hq⟩ := hmem m hm
        refine ⟨hzf, hfl, ?_⟩
        intro q hqm
        obtain ⟨hqin, hqkeys⟩ := hq q hqm
        refine ⟨by rw [hpaths]; exact List.mem_append_left _ hqin, ?_⟩
        rw [keysOf_append]
        intro habs
        rcases List.mem_append.1 habs with habs | habs
        · exact hqkeys habs
        · simp only [keysOf, List.mem_map] at habs
          obtain ⟨s', hs', hkeyeq⟩ := habs
          exact hdisj hqin (hkeyeq ▸ (ld s' hs').1)
      · obtain ⟨hkey, hmem⟩ := ld s hs₂
        refine ⟨by rw [hpaths]; exact List.mem_append_right _ hkey, ?_⟩
        intro m hm
        obtain ⟨hzf, hfl, hq⟩ := hmem m hm
        refine ⟨hzf, hfl, ?_⟩
        intro q hqm
        obtain ⟨hqin, hqkeys⟩ := hq q hqm
        refine ⟨by rw [hpaths]; exact List.mem_append_right _ hqin, ?_⟩
        rw [keysOf_append]
        intro habs
        rcases List.mem_append.1 habs with habs | habs
        · simp only [keysOf, List.mem_map] at habs
          obtain ⟨s', hs', hkeyeq⟩ := habs
          exact hdisj (hkeyeq ▸ (td s' hs').1) hqin
        · exact hqkeys habs
    · intro s hs c hc hcflag
      rcases List.mem_append.1 hs with hs₁ | hs₂ <;>
        rcases List.mem_cons.1 hc with rfl | hc'
      · have ht2 : (find_splits chunk_size min_zip_depth dep t).2 = [] := by
          by_contra habs
          have hflag := tc.2 habs
          rw [hcflag] at hflag
          exact absurd hflag (by simp)
        rw [ht2] at hs₁
        exact absurd hs₁ (List.not_mem_nil s)
      · intro habs
        have hq : s.1.1 ∈ allPathsF ts := by
          rw [← la]
          exact allPathsT_subset_of_mem hc' _ habs
        exact hdisj (td s hs₁).1 hq
      · intro habs
        rw [ta] at habs
        exact hdisj habs (ld s hs₂).1
      · exact le s hs₂ c hc' hcflag
  termination_by structural ts => ts
end

mutual
/-- `tree.find` semantics: when no non-archive node with path `p`
exists, applying a split for `p` leaves the tree untouched. -/
theorem applySplitT_not_found (p : String) (z : PTree) (mp : List String) :
    ∀ t : PTree, containsPNT p t = false → applySplitT p z mp t = (t, false)
  | .node d cs => by
    intro h
    simp only [containsPNT, Bool.or_eq_false_iff, Bool.and_eq_false_iff] at h
    simp only [applySplitT]
    rw [applySplitF_not_found p z mp cs h.2]
  termination_by structural t => t

/-- Forest version of `applySplitT_not_found`. -/
theorem applySplitF_not_found (p : String) (z : PTree) (mp : List String) :
    ∀ ts : List PTree, containsPNF p ts = false → applySplitF p z mp ts = (ts, false)
  | [] => by intro _; rfl
  | t :: ts => by
    intro h
    simp only [containsPNF, Bool.or_eq_false_iff] at h
    have hhead : containsPNT p t = false := h.1
    have hcond : (decide (t.data.path = p) && !t.data.is_zip) = false := by
      rcases t with ⟨d, cs⟩
      simp only [containsPNT, Bool.or_eq_false_iff] at hhead
      simpa [PTree.data] using hhead.1
    simp only [applySplitF]
    rw [if_neg (by simp only [hcond]; exact Bool.false_ne_true)]
    rw [applySplitT_not_found p z mp t hhead]
    rw [applySplitF_not_found p z mp ts h.2]
  termination_by structural ts => ts
end

theorem noNestedF_filter {cs : List PTree} (pred : PTree → Bool)
    (h : noNestedF cs = true) : noNestedF (cs.filter pred) = true :=
  (noNestedF_forall _).2 fun t ht =>
    (noNestedF_forall _).1 h t (List.mem_of_mem_filter ht)

theorem keyOutsideF_filter {q : String} {cs : List PTree} (pred : PTree → Bool)
    (h : keyOutsideF q cs = true) : keyOutsideF q (cs.filter pred) = true :=
  (keyOutsideF_forall _ _).2 fun t ht =>
    (keyOutsideF_forall _ _).1 h t (List.mem_of_mem_filter ht)

theorem noNestedF_append {as bs : List PTree}
    (ha : noNestedF as = true) (hb : noNestedF bs = true) :
    noNestedF (as ++ bs) = true := by
  refine (noNestedF_forall _).2 fun t ht => ?_
  rcases List.mem_append.1 ht with h | h
  · exact (noNestedF_forall _).1 ha t h
  · exact (noNestedF_forall _).1 hb t h

theorem keyOutsideF_append {q : String} {as bs : List PTree}
    (ha : keyOutsideF q as = true) (hb : keyOutsideF q bs = true) :
    keyOutsideF q (as ++ bs) = true := by
  refine (keyOutsideF_forall _ _).2 fun t ht => ?_
  rcases List.mem_append.1 ht with h | h
  · exact (keyOutsideF_forall _ _).1 ha t h
  · exact (keyOutsideF_forall _ _).1 hb t h

mutual
/-- Applying one split preserves the no-nesting invariant and, for any
key `q` that does not occur among the inserted archive's contents,
the key-outside-archives invariant.  The inserted archive `.node zd zg`
is an archive with archive-free contents, and the split's own key `p`
has no non-archive occurrence inside any archive of the tree. -/
theorem applySplitT_preserves (p : String) (zd : PathData) (zg : List PTree)
    (mp : List String) (hz1 : zd.is_zip = true) (hz2 : zipFreeF zg = true) :
    ∀ t : PTree, noNestedT t = true → keyOutsideT p t = true →
      noNestedT (applySplitT p (.node zd zg) mp t).1 = true ∧
      (∀ q, keyOutsideT q t = true → containsPNF q zg = false →
        keyOutsideT q (applySplitT p (.node zd zg) mp t).1 = true)
  | .node d cs => by
    intro hnn hko
    by_cases hdz : d.is_zip = true
    · have hcont : containsPNF p cs = false := by
        simp only [keyOutsideT, hdz, if_true] at hko
        simpa using hko
      rw [applySplitT_not_found p _ mp (.node d cs)
        (by simp only [containsPNT, hdz, hcont]; simp)]
      exact ⟨hnn, fun q hq _ => hq⟩
    · have hdz' : d.is_zip = false := by simpa using hdz
      simp only [noNestedT, hdz', Bool.false_eq_true, if_false] at hnn
      simp only [keyOutsideT, hdz', Bool.false_eq_true, if_false] at hko
      obtain ⟨h1, h2⟩ := applySplitF_preserves p zd zg mp hz1 hz2 cs hnn hko
      simp only [applySplitT]
      refine ⟨?_, ?_⟩
      · simp only [noNestedT, hdz', Bool.false_eq_true, if_false]
        exact h1
      · intro q hq hqzg
        simp only [keyOutsideT, hdz', Bool.false_eq_true, if_false] at hq ⊢
        exact h2 q hq hqzg
  termination_by structural t => t

/-- Forest version of `applySplitT_preserves`. -/
theorem applySplitF_preserves (p : String) (zd : PathData) (zg : List PTree)
    (mp : List String) (hz1 : zd.is_zip = true) (hz2 : zipFreeF zg = true) :
    ∀ ts : List PTree, noNestedF ts = true → keyOutsideF p ts = true →
      noNestedF (applySplitF p (.node zd zg) mp ts).1 = true ∧
      (∀ q, keyOutsideF q ts = true → containsPNF q zg = false →
        keyOutsideF q (applySplitF p (.node zd zg) mp ts).1 = true)
  | [] => by
    intro _ _
    exact ⟨rfl, fun q _ _ => rfl⟩
  | t :: ts => by
    intro hnn hko
    simp only [noNestedF, Bool.and_eq_true] at hnn
    simp only [keyOutsideF, Bool.and_eq_true] at hko
    have hzgood : noNestedT (.node zd zg) = true := by
      simp only [noNestedT, hz1, if_true]
      exact hz2
    simp only [applySplitF]
    split
    · next hfound =>
      rcases t with ⟨td, tcs⟩
      simp only [PTree.data, Bool.and_eq_true] at hfound
      have htdz : td.is_zip = false := by simpa using hfound.2
      have hnnt : noNestedF tcs = true := by
        have h := hnn.1
        simpa [noNestedT, htdz] using h
      have hremnn : noNestedF (tcs.filter
          (fun c => !(mp.contains c.data.path && !c.data.is_zip))) = true :=
        noNestedF_filter _ hnnt
      split
      · refine ⟨noNestedF_append hnn.2 ?_, ?_⟩
        · simp only [noNestedF, Bool.and_eq_true]
          exact ⟨hzgood, trivial⟩
        · intro q hq hqzg
          simp only [keyOutsideF, Bool.and_eq_true] at hq
          refine keyOutsideF_append hq.2 ?_
          simp only [keyOutsideF, keyOutsideT, hz1, if_true, Bool.and_eq_true]
          exact ⟨by simpa using hqzg, trivial⟩
      · refine ⟨?_, ?_⟩
        · refine noNestedF_append ?_ ?_
          · simp only [noNestedF, Bool.and_eq_true]
            refine ⟨?_, hnn.2⟩
            simp only [noNestedT, PTree.data, PTree.children, htdz, Bool.false_eq_true,
              if_false]
            exact hremnn
          · simp only [noNestedF, Bool.and_eq_true]
            exact ⟨hzgood, trivial⟩
        · intro q hq hqzg
          simp only [keyOutsideF, Bool.and_eq_true] at hq
          have hqt : keyOutsideF q tcs = true := by
            have h := hq.1
            simpa [keyOutsideT, htdz] using h
          refine keyOutsideF_append ?_ ?_
          · simp only [keyOutsideF, Bool.and_eq_true]
            refine ⟨?_, hq.2⟩
            simp only [keyOutsideT, PTree.data, PTree.children, htdz, Bool.false_eq_true,
              if_false]
            exact keyOutsideF_filter _ hqt
          · simp only [keyOutsideF, keyOutsideT, hz1, if_true, Bool.and_eq_true]
            exact ⟨by simpa using hqzg, trivial⟩
    · obtain ⟨ht1, ht2⟩ :=
        applySplitT_preserves p zd zg mp hz1 hz2 t hnn.1 hko.1
      obtain ⟨hl1, hl2⟩ :=
        applySplitF_preserves p zd zg mp hz1 hz2 ts hnn.2 hko.2
      cases hat : applySplitT p (.node zd zg) mp t with
      | mk t' found =>
        cases found
        · simp only [hat]
          refine ⟨?_, ?_⟩
          · simp only [noNestedF, Bool.and_eq_true]
            exact ⟨hnn.1, hl1⟩
          · intro q hq hqzg
            simp only [keyOutsideF, Bool.and_eq_true] at hq ⊢
            exact ⟨hq.1, hl2 q hq.2 hqzg⟩
        · simp only [hat]
          refine ⟨?_, ?_⟩
          · simp only [noNestedF, Bool.and_eq_true]
            rw [hat] at ht1
            exact ⟨ht1, hnn.2⟩
          · intro q hq hqzg
            simp only [keyOutsideF, Bool.and_eq_true] at hq ⊢
            have h := ht2 q hq.1 hqzg
            rw [hat] at h
            exact ⟨h, hq.2⟩
  termination_by structural ts => ts
end

/-- `ziptreeChecks` never alters its input: success returns it as-is. -/
theorem ziptreeChecks_ok_eq {raw_files : List String} {f out : List PTree}
    (h : ziptreeChecks raw_files f = .ok out) : out = f := by
  unfold ziptreeChecks at h
  split at h
  · exact absurd h (by simp)
  · split at h
    · exact absurd h (by simp)
    · injection h with h
      exact h.symm

/-- Applying all recorded splits preserves the no-nesting invariant,
provided every group member is archive-free, every key has no
non-archive occurrence inside an archive of the current forest, and no
key occurs inside any group member. -/
theorem applySplits_noNested :
    ∀ (rem : List Split) (F : List PTree),
      noNestedF F = true →
      (∀ s ∈ rem, ∀ m ∈ s.2, zipFreeT m = true) →
      (∀ s ∈ rem, keyOutsideF s.1.1 F = true) →
      (∀ s ∈ rem, ∀ s' ∈ rem, ∀ m ∈ s'.2, containsPNT s.1.1 m = false) →
      noNestedF (applySplits rem F) = true
  | [], F => fun h _ _ _ => h
  | ((p, i), g) :: rest, F => by
    intro hnn hmem hko hcross
    simp only [applySplits, mkZipNode]
    have hz2 : zipFreeF g = true :=
      (zipFreeF_forall g).2 (hmem _ (List.mem_cons_self _ _))
    obtain ⟨h1, h2⟩ := applySplitF_preserves p
      ⟨zipName p i, false, true, false, sumSizes g⟩ g
      (g.map (fun c => c.data.path)) rfl hz2 F hnn (hko _ (List.mem_cons_self _ _))
    refine applySplits_noNested rest _ h1 ?_ ?_ ?_
    · intro s hs m hm
      exact hmem s (List.mem_cons_of_mem _ hs) m hm
    · intro s hs
      refine h2 s.1.1 (hko s (List.mem_cons_of_mem _ hs)) ?_
      have hc := hcross s (List.mem_cons_of_mem _ hs) ((p, i), g)
        (List.mem_cons_self _ _)
      cases hcf : containsPNF s.1.1 g
      · rfl
      · rcases (containsPNF_exists _ _).1 hcf with ⟨m, hm, hcm⟩
        rw [hc m hm] at hcm
        exact absurd hcm (by simp)
    · intro s hs s' hs' m hm
      exact hcross s (List.mem_cons_of_mem _ hs) s' (List.mem_cons_of_mem _ hs') m hm

/-- C4: on a freshly scanned tree (no archives, clear flags, globally
distinct paths), whenever `split_into_chunks` succeeds, no archive node
of the output is a descendant of another archive — and the mechanism
behind it: every recorded group consists only of children whose
`has_zip_descendants` flag is still clear, and a set child flag always
propagates into the parent's flag. -/
theorem C4_no_nested_archives :
    (∀ (chunk_size min_zip_depth : Nat) (tree out : List PTree),
      cleanF tree = true → (allPathsF tree).Nodup →
      split_into_chunks chunk_size min_zip_depth tree = .ok out →
      noNestedF out = true) ∧
    (∀ (chunk_size min_zip_depth dep : Nat) (t : PTree),
      cleanT t = true → (allPathsT t).Nodup →
      ∀ s ∈ (find_splits chunk_size min_zip_depth dep t).2, ∀ m ∈ s.2,
        m.flag = false) ∧
    (∀ (chunk_size min_zip_depth dep : Nat) (d : PathData) (cs : List PTree),
      ∀ c ∈ (find_splits_list chunk_size min_zip_depth (dep + 1) cs).1,
        c.flag = true →
        ((find_splits chunk_size min_zip_depth dep (.node d cs)).1).flag = true) := by
  refine ⟨?_, ?_, ?_⟩
  · intro chunk_size min_zip_depth tree out hclean hnodup hok
    cases tree with
    | nil =>
      simp only [split_into_chunks] at hok
      injection hok with h
      rw [← h]
      rfl
    | cons root rest =>
      simp only [split_into_chunks] at hok
      have hout := ziptreeChecks_ok_eq hok
      simp only [cleanF, Bool.and_eq_true] at hclean
      have hpaths : allPathsF (root :: rest) = allPathsT root ++ allPathsF rest := rfl
      rw [hpaths, List.nodup_append] at hnodup
      obtain ⟨hnd₁, hnd₂, hdisj⟩ := hnodup
      obtain ⟨fa, fb, fc, fd⟩ :=
        find_splits_invariant root chunk_size min_zip_depth 1 hclean.1 hnd₁
      have hrestzf : zipFreeF rest = true := cleanF_zipFreeF rest hclean.2
      have hbase : zipFreeF
          ((find_splits chunk_size min_zip_depth 1 root).1 :: rest) = true := by
        simp only [zipFreeF, Bool.and_eq_true]
        exact ⟨fb, hrestzf⟩
      rw [hout]
      refine applySplits_noNested _ _ ?_ ?_ ?_ ?_
      · exact zipFreeF_noNestedF _ hbase
      · intro s hs m hm
        exact ((fd s hs).2 m hm).1
      · intro s hs
        exact zipFreeF_keyOutsideF _ _ hbase
      · intro s hs s' hs' m hm
        cases hcf : containsPNT s.1.1 m
        · rfl
        · have hq := containsPNT_mem_allPaths _ m hcf
          have hkeys := (((fd s' hs').2 m hm).2.2 s.1.1 hq).2
          exact absurd (List.mem_map.2 ⟨s, hs, rfl⟩) hkeys
  · intro chunk_size min_zip_depth dep t hclean hnodup s hs m hm
    obtain ⟨_, _, _, fd⟩ := find_splits_invariant t chunk_size min_zip_depth dep hclean hnodup
    exact ((fd s hs).2 m hm).2.1
  · intro chunk_size min_zip_depth dep d cs c hc hcflag
    rw [find_splits_node]
    simp only []
    have hany : ((find_splits_list chunk_size min_zip_depth (dep + 1) cs).1.any
        (fun c => c.flag)) = true :=
      List.any_eq_true.2 ⟨c, hc, hcflag⟩
    rcases List.any_eq_true.1 hany with ⟨x, hx, hfx⟩
    rcases x with ⟨xd, xcs⟩
    simp only [PTree.flag, PTree.data] at hfx
    split
    · simp only [PTree.flag, PTree.data, Bool.or_eq_true, List.any_eq_true]
      exact Or.inl (Or.inr ⟨_, hx, hfx⟩)
    · simp only [PTree.flag, PTree.data, Bool.or_eq_true, List.any_eq_true]
      exact Or.inr ⟨_, hx, hfx⟩

/-- Concrete instantiation of `C4_no_nested_archives`: the chunked
199-byte example tree contains no nested archives. -/
theorem C4_no_nested_archives_witness :
    noNestedF [PTree.node ⟨"/r_0.zip", false, true, false, 1⟩ [mfile "/r/a" 1],
       PTree.node ⟨"/r_1.zip", false, true, false, 198⟩
         [mfile "/r/b" 99, mfile "/r/c" 99]] = true :=
  C4_no_nested_archives.1 100 1
    [mdir "/r" 199 [mfile "/r/a" 1, mfile "/r/b" 99, mfile "/r/c" 99]]
    [PTree.node ⟨"/r_0.zip", false, true, false, 1⟩ [mfile "/r/a" 1],
     PTree.node ⟨"/r_1.zip", false, true, false, 198⟩
       [mfile "/r/b" 99, mfile "/r/c" 99]]
    (by decide) (by decide) (by rfl)
